import Mathlib

/-!
Verification development for the symbolic core of the ODE toolbox
(`odetoolbox/shapes.py`, `odetoolbox/system_of_shapes.py`).

Sympy expressions are shallowly embedded in expanded sum-of-terms form:
an expression is the list of additive terms (the arguments of the
expanded `Add`); a term is an integer coefficient together with a list
of (symbol, integer exponent) power factors.  This covers the class of
expressions the separation and assembly algorithms manipulate
(polynomials in the state-variable symbols whose coefficients are
Laurent monomial combinations of parameter symbols; a rational numeric
coefficient is a Laurent monomial in parameter symbols as well, so
integer coefficients lose no generality for the properties at stake).
Division of a term by a symbol and differentiation with respect to a
symbol prepend an exponent entry, mirroring sympy power arithmetic;
`sympy.simplify` and the exact zero test are modelled by normalisation
to a canonical sum of monomials (`normE` and `isZeroE`), with bases
kept in order of first occurrence.
-/

namespace OdeTb

structure Term where
  coeff : Int
  pows : List (String × Int)
deriving DecidableEq, Repr

abbrev Expr := List Term

instance instDecEqExcept {ε α : Type} [DecidableEq ε] [DecidableEq α] :
    DecidableEq (Except ε α) := fun a b =>
  match a, b with
  | .ok x, .ok y =>
      if h : x = y then .isTrue (congrArg Except.ok h)
      else .isFalse (fun hc => h (Except.ok.inj hc))
  | .ok _, .error _ => .isFalse (fun hc => Except.noConfusion hc)
  | .error _, .ok _ => .isFalse (fun hc => Except.noConfusion hc)
  | .error e, .error f =>
      if h : e = f then .isTrue (congrArg Except.error h)
      else .isFalse (fun hc => h (Except.error.inj hc))

def zeroE : Expr := []

def oneE : Expr := [⟨1, []⟩]

def constE (q : Int) : Expr := [⟨q, []⟩]

def symE (s : String) : Expr := [⟨1, [(s, 1)]⟩]

/-- Total exponent of symbol `s` in a power-factor list (sympy combines
powers of the same base automatically; here the combination is kept lazy
and read off by summation). -/
def getExpP (l : List (String × Int)) (s : String) : Int :=
  l.foldr (fun p acc => if p.1 = s then p.2 + acc else acc) 0

/-- Free symbols of a term: the bases whose combined exponent is nonzero
(`Expr.free_symbols` on a monomial). -/
def freeSymsT (t : Term) : List String :=
  ((t.pows.map Prod.fst).eraseDups).filter (fun s => getExpP t.pows s ≠ 0)

/-- Division of a term by a symbol (`term / sym`): one inverse power of
the symbol is merged in. -/
def divSymT (t : Term) (s : String) : Term := ⟨t.coeff, (s, -1) :: t.pows⟩

/-- Multiplication of a term by a symbol. -/
def mulSymT (t : Term) (s : String) : Term := ⟨t.coeff, (s, 1) :: t.pows⟩

def mulSymE (e : Expr) (s : String) : Expr := e.map (fun t => mulSymT t s)

/-- Derivative of a monomial with respect to a symbol:
`d/ds (c * s^e * rest) = (c*e) * s^(e-1) * rest` (`sympy.diff`). -/
def diffT (t : Term) (s : String) : Term :=
  ⟨t.coeff * getExpP t.pows s, (s, -1) :: t.pows⟩

def diffE (e : Expr) (s : String) : Expr := e.map (fun t => diffT t s)

def addE (a b : Expr) : Expr := a ++ b

def subE (a b : Expr) : Expr := a ++ b.map (fun t => ⟨-t.coeff, t.pows⟩)

/-- Evaluation of a power-factor list under an assignment of rational
values to symbols. -/
def prodPows (l : List (String × Int)) (σ : String → Rat) : Rat :=
  l.foldr (fun p acc => σ p.1 ^ p.2 * acc) 1

def evalT (t : Term) (σ : String → Rat) : Rat := (t.coeff : Rat) * prodPows t.pows σ

def evalE (e : Expr) (σ : String → Rat) : Rat := (e.map (fun t => evalT t σ)).sum

def remKeyP (l : List (String × Int)) (s : String) : List (String × Int) :=
  l.filter (fun p => p.1 ≠ s)

/-- Canonical form of a power-factor list: exponents of equal bases are
combined, zero exponents dropped, bases kept in order of first
occurrence (sympy's automatic `Mul` evaluation).  The structural fuel
argument keeps the definition kernel-computable; `l.length` is always
sufficient fuel because removing a key never lengthens the list. -/
def normPowsAux : Nat → List (String × Int) → List (String × Int)
  | 0, _ => []
  | _, [] => []
  | fuel + 1, (s, e) :: rest =>
      let tot := e + getExpP rest s
      let tail := normPowsAux fuel (remKeyP rest s)
      if tot = 0 then tail else (s, tot) :: tail

def normPows (l : List (String × Int)) : List (String × Int) :=
  normPowsAux l.length l

def normT (t : Term) : Term := ⟨t.coeff, normPows t.pows⟩

/-- Merge a term into a sum, combining it with an existing term over the
same monomial if present (automatic collection of like terms in `Add`). -/
def insertT (t : Term) : Expr → Expr
  | [] => [t]
  | u :: rest =>
      if u.pows = t.pows then ⟨u.coeff + t.coeff, u.pows⟩ :: rest
      else u :: insertT t rest

/-- Normal form of an expression: all terms put over canonical monomials,
like terms combined, vanishing terms dropped.  This models
`sympy.simplify` on the embedded expression class. -/
def normE (e : Expr) : Expr :=
  ((e.map normT).foldr insertT []).filter (fun t => t.coeff ≠ 0)

/-- Exact symbolic zero test (`sympy.simplify(e) == 0` / `e.is_zero`). -/
def isZeroE (e : Expr) : Bool := normE e = []

end OdeTb

namespace OdeTb

/-- Canonical representation of one shape (`Shape.__init__`).  The
constructor's consistency asserts are recorded in `ShapeWF`;
`diff_rhs_derivatives` is simplified on construction (shapes.py line
125), which `mkShape` mirrors with `normE`. -/
structure Shape where
  symbol : String
  order : Nat
  initialValues : List (String × Expr)
  derivativeFactors : List Expr
  diffRhsDerivatives : Expr
deriving DecidableEq, Repr

def dSuffix : Nat → String
  | 0 => ""
  | n + 1 => dSuffix n ++ "__d"

/-- The symbol of the i-th derivative: `Symbol(str(symbol) + "__d" * i)`. -/
def derivSym (symbol : String) (i : Nat) : String := symbol ++ dSuffix i

def mkShape (symbol : String) (order : Nat) (ivs : List (String × Expr))
    (dfs : List Expr) (rhs : Expr) : Shape :=
  ⟨symbol, order, ivs, dfs, normE rhs⟩

/-- The constructor's asserts: one initial value and one derivative
factor per derivative level. -/
def ShapeWF (sh : Shape) : Prop :=
  sh.initialValues.length = sh.order ∧ sh.derivativeFactors.length = sh.order

/-- State variables in companion order, from the highest derivative down
to the base symbol (shapes.py lines 117-123). -/
def stateVariables (sh : Shape) : List String :=
  ((List.range sh.order).reverse).map (fun i => derivSym sh.symbol i)

/-- All variable symbols of the shape in ascending derivative order
(`Shape.get_all_variable_symbols` with `differential_order_str="__d"`). -/
def allVariableSymbols (sh : Shape) : List String :=
  (List.range sh.order).map (fun i => derivSym sh.symbol i)

/-- Lookup of an initial value (`Shape.get_initial_value`): `None` is
returned when the symbol is not among the keys, the stored expression
otherwise. -/
def getInitialValue (sh : Shape) (sym : String) : Option Expr :=
  if sym ∈ sh.initialValues.map Prod.fst then sh.initialValues.lookup sym
  else none

end OdeTb

namespace OdeTb

abbrev Mat := Nat → Nat → Expr

abbrev Vec := Nat → Expr

def setM (A : Mat) (i j : Nat) (v : Expr) : Mat :=
  fun a b => if a = i ∧ b = j then v else A a b

def setV (C : Vec) (i : Nat) (v : Expr) : Vec :=
  fun a => if a = i then v else C a

/-- Global system `x' = Ax + C` (`SystemOfShapes.__init__`). -/
structure SystemOfShapes where
  x : List String
  A : Mat
  C : Vec
  shapes : List Shape

/-- Result dictionary of `compute_propagator`: the nonzero propagator
entries keyed by their minted placeholder names, the per-variable update
expressions (strings, as in the source), and the state variables. -/
structure SolverDict where
  propagators : List (String × Expr)
  updateExpressions : List (String × String)
  shapeStateVariables : List String
deriving DecidableEq, Repr

def propName (rowSym colSym : String) : String :=
  "__P__" ++ rowSym ++ "__" ++ colSym

def joinPlus : List String → String
  | [] => ""
  | [a] => a
  | a :: rest => a ++ " + " ++ joinPlus rest

def updateRowStr (P : Mat) (x : List String) (row : Nat) : String :=
  joinPlus ((List.range x.length).filterMap (fun col =>
    if isZeroE (P row col) then none
    else some (propName (x.getD row "") (x.getD col "") ++ " * " ++ x.getD col "")))

/-- Shallow embedding of `SystemOfShapes.compute_propagator`.  The
symbolic matrix exponential `sympy.exp(self.A_ * Symbol(h))` is the
externally provided computer-algebra capability (spec section 2) and is
passed in as `mexp`; the function then mints a placeholder name for
every nonzero entry of the propagator, records the placeholder to
expression map, and joins the per-row update expressions.  The
trailing debugger breakpoint in the source is a no-op here.  Note the
source never inspects `self.C_` or `self.shapes_` anywhere in this
method. -/
def computePropagator (mexp : Mat → String → Mat) (hname : String)
    (sys : SystemOfShapes) : SolverDict :=
  let P := mexp sys.A hname
  let n := sys.x.length
  { propagators := (List.range n).flatMap (fun row =>
      (List.range n).filterMap (fun col =>
        if isZeroE (P row col) then none
        else some (propName (sys.x.getD row "") (sys.x.getD col ""), P row col))),
    updateExpressions := (List.range n).map (fun row =>
      (sys.x.getD row "", updateRowStr P sys.x row)),
    shapeStateVariables := sys.x }

end OdeTb

namespace OdeTb

/-- Linearity test of one additive term in one known symbol
(shapes.py line 301): a term is linear in `sym` iff the free symbols of
`term / sym` are disjoint from the full known-symbol set `x`. -/
def termIsLinearIn (t : Term) (sym : String) (x : List String) : Bool :=
  (freeSymsT (divSymT t sym)).all (fun s => decide (s ∉ x))

/-- One iteration of the separation loop of `Shape.split_lin_nonlin`
(shapes.py lines 293-317): collect the terms linear in `sym`, return
their accumulated quotient as the linear factor (the literal `Float(0)`
when there are none), and the remaining expression.  Subtracting the
collected terms from the expanded sum cancels them argument by argument,
which the filter mirrors. -/
def splitStep (terms : List Term) (sym : String) (x : List String) : Expr × List Term :=
  let linearTerms := terms.filter (fun t => termIsLinearIn t sym x)
  let linearFactor : Expr :=
    if linearTerms.isEmpty then constE 0 else linearTerms.map (fun t => divSymT t sym)
  (linearFactor, terms.filter (fun t => ! termIsLinearIn t sym x))

def splitAux : List Term → List String → List String → List Expr × Expr
  | terms, [], _x => ([], terms)
  | terms, sym :: rest, x =>
      let st := splitStep terms sym x
      let r := splitAux st.2 rest x
      (st.1 :: r.1, r.2)

/-- `Shape.split_lin_nonlin(expr, x)` (shapes.py lines 279-325): one
linear factor per known symbol, in the order of `x`, plus the nonlinear
remainder. -/
def splitLinNonlin (terms : List Term) (x : List String) : List Expr × Expr :=
  splitAux terms x x

inductive FromOdeErr where
  | symbolNotKnown
deriving DecidableEq, Repr

/-- Shallow embedding of `Shape.from_ode` (shapes.py lines 539-714).
The definition and the initial values arrive already parsed (with primes
already rewritten to the `__d` suffix convention, as done by the
source's `parse_expr` preprocessing); the regex-based sanity checks of
`_initial_values_sanity_checks`, which can only raise and do not alter
the constructed value, are not modelled.  The function returns the
constructed shape together with the final contents of the
`all_variable_symbols` list: the source extends that list in place
(shapes.py lines 610-611) and, when it is the shared default argument
`[]` of `from_ode`, the extension persists between calls.  A missing
derivative symbol makes `all_variable_symbols.index` raise `ValueError`
(line 703), modelled as `FromOdeErr.symbolNotKnown`.  The debugger
breakpoint guarded by the symbol name (line 711) is a no-op here. -/
def fromOdeCore (symbol : String) (definition : Expr) (ivs : List (String × Expr))
    (avs1 : List String) : Except FromOdeErr Shape :=
  let order := ivs.length
  let derivSyms := (List.range order).map (fun i => derivSym symbol i)
  let sp := splitLinNonlin definition avs1
  let dfs := sp.1
  let nonlin := sp.2
  if _h : ∀ s ∈ derivSyms, s ∈ avs1 then
    let localIdx := derivSyms.map (fun s => avs1.indexOf s)
    let localDfs := (List.range avs1.length).filterMap (fun i =>
      if i ∈ localIdx then some (dfs.getD i (constE 0)) else none)
    let nonlocalTerms := (List.range avs1.length).filterMap (fun i =>
      if i ∈ localIdx then none else some (mulSymE (dfs.getD i (constE 0)) (avs1.getD i "")))
    let rhs := if nonlocalTerms.isEmpty then nonlin else nonlin ++ nonlocalTerms.flatten
    Except.ok (mkShape symbol order ivs localDfs rhs)
  else
    Except.error FromOdeErr.symbolNotKnown

def updatedAvs (symbol : String) (ivsLen : Nat) (avs0 : List String) : List String :=
  if symbol ∈ avs0 then avs0
  else avs0 ++ (List.range ivsLen).map (fun i => derivSym symbol i)

def fromOde (symbol : String) (definition : Expr) (ivs : List (String × Expr))
    (avs0 : List String) : Except FromOdeErr Shape × List String :=
  let avs1 := updatedAvs symbol ivs.length avs0
  (fromOdeCore symbol definition ivs avs1, avs1)

/-- `Shape.reconstitute_expr` (shapes.py lines 271-276): the residual
plus each derivative factor times its derivative symbol, in ascending
derivative order. -/
def reconstituteExpr (sh : Shape) : Expr :=
  sh.diffRhsDerivatives ++
    ((sh.derivativeFactors.zip ((List.range sh.order).map (fun i => derivSym sh.symbol i))).map
      (fun p => mulSymE p.1 p.2)).flatten

/-- Semantic value of a factor list paired with its symbols:
`Σ factors[j] * σ(x[j])`. -/
def dotEval (fs : List Expr) (xs : List String) (σ : String → Rat) : Rat :=
  ((fs.zip xs).map (fun p => evalE p.1 σ * σ p.2)).sum

def exC2def : Expr := [⟨2, [("x", 1)]⟩, ⟨3, [("x__d", 1)]⟩]

def exC2ivs : List (String × Expr) := [("x", zeroE), ("x__d", zeroE)]

def exC2sigma : String → Rat := fun s => if s = "x__d" then 2 else 1

def exC8defX : Expr := [⟨1, []⟩]

def exC8defY : Expr := [⟨1, [("x", 1), ("y", 1)]⟩]

def dummyShape : Shape := ⟨"", 0, [], [], zeroE⟩

def orderSum (l : List Shape) : Nat := (l.map (fun sh => sh.order)).sum

/-- Start row of the k-th shape's companion block in the global state
vector. -/
def blockStart (shapes : List Shape) (k : Nat) : Nat := orderSum (shapes.take k)

/-- Writing the top row of a shape's block (system_of_shapes.py lines
195-196): column `j` receives the derivative of the shape's full
reconstituted expression with respect to the j-th global state
variable. -/
def writeTopRow (A : Mat) (row : Nat) (x : List String) (e : Expr) : Mat :=
  (List.range x.length).foldl (fun M j => setM M row j (diffE e (x.getD j ""))) A

/-- Identity chaining rows for the higher derivatives
(system_of_shapes.py lines 199-202): for each derivative level below
the top one, a single 1 entry at the column of the next-higher
derivative symbol. -/
def writeOnes (A : Mat) (i : Nat) (sh : Shape) (x : List String) : Mat :=
  (List.range (sh.order - 1)).foldl
    (fun M o =>
      setM M (i + (sh.order - o - 1)) (x.indexOf (derivSym sh.symbol (o + 1))) oneE) A

def buildAAux (x : List String) : List Shape → Nat → Mat → Mat
  | [], _, A => A
  | sh :: rest, i, A =>
      let M1 := writeTopRow A (x.indexOf (derivSym sh.symbol (sh.order - 1))) x
        (reconstituteExpr sh)
      let M2 := writeOnes M1 i sh x
      buildAAux x rest (i + sh.order) M2

/-- The `A`-assembly loop of `SystemOfShapes.from_shapes`
(system_of_shapes.py lines 185-204); the expression differentiated in
the top row is `diff_rhs_derivatives + Σ derivative_factors[k] *
derivative_symbols[k]`, which is exactly `reconstitute_expr`. -/
def buildA (shapes : List Shape) (x : List String) : Mat :=
  buildAAux x shapes 0 (fun _ _ => zeroE)

/-- The sequential linearisation remainder (system_of_shapes.py lines
212-213): for each global state variable in turn, subtract the variable
times the partial derivative of the running expression and simplify. -/
def seqSubtract (e : Expr) (x : List String) : Expr :=
  x.foldl (fun acc sym => normE (subE acc (mulSymE (diffE acc sym) sym))) e

def buildCAux (x : List String) : List Shape → Vec → Vec
  | [], Cv => Cv
  | sh :: rest, Cv =>
      buildCAux x rest
        (setV Cv (x.indexOf (derivSym sh.symbol (sh.order - 1)))
          (seqSubtract sh.diffRhsDerivatives x))

/-- The `C`-assembly loop of `SystemOfShapes.from_shapes`
(system_of_shapes.py lines 206-217).  Note the starting expression is
`shape.diff_rhs_derivatives` alone — the derivative-factor terms are
not included. -/
def buildC (shapes : List Shape) (x : List String) : Vec :=
  buildCAux x shapes (fun _ => zeroE)

/-- `SystemOfShapes.from_shapes` (system_of_shapes.py lines 161-219). -/
def fromShapes (shapes : List Shape) : SystemOfShapes :=
  let x := shapes.flatMap (fun sh => stateVariables sh)
  ⟨x, buildA shapes x, buildC shapes x, shapes⟩

/-- Value of row `r` of `A*x + C` under an assignment. -/
def rowValue (sys : SystemOfShapes) (r : Nat) (σ : String → Rat) : Rat :=
  ((List.range sys.x.length).map (fun j => evalE (sys.A r j) σ * σ (sys.x.getD j ""))).sum +
    evalE (sys.C r) σ

def exYShape : Shape := ⟨"y", 1, [("y", zeroE)], [constE 0], zeroE⟩

def exZShape : Shape := ⟨"z", 1, [("z", zeroE)], [constE 0], [⟨1, [("y", 1), ("z", 1)]⟩]⟩

/-- The deduplicated list of all known variable symbols used by
`is_lin_const_coeff` (shapes.py lines 179-186): the shape itself is
appended when not already among the shapes, then every shape
contributes its derivative-level symbols, and duplicates are removed
(at `list(set(...))`; the set order does not affect the result). -/
def allSymbolsOf (self : Shape) (shapes : List Shape) : List String :=
  let shapes2 := if self ∈ shapes then shapes else shapes ++ [self]
  (shapes2.flatMap (fun sh => allVariableSymbols sh)).eraseDups

/-- `Shape.is_lin_const_coeff` (shapes.py lines 172-201): for every
known symbol, every derivative factor must have an identically zero
first derivative with respect to it, and the residual must either not
depend on it or have identically zero second derivatives with respect
to it and every known symbol. -/
def isLinConstCoeff (self : Shape) (shapes : List Shape) : Bool :=
  (allSymbolsOf self shapes).all (fun sym =>
    self.derivativeFactors.all (fun df => isZeroE (diffE df sym)) &&
    (isZeroE (diffE self.diffRhsDerivatives sym) ||
     (allSymbolsOf self shapes).all (fun sym2 =>
       isZeroE (diffE (diffE self.diffRhsDerivatives sym) sym2))))

/-- `SystemOfShapes.get_lin_cc_symbols` (system_of_shapes.py lines
60-77): every derivative-level symbol of a shape is mapped to that
shape's `is_lin_const_coeff` verdict.  The edge list argument is
unused, as in the source. -/
def getLinCcSymbols (sys : SystemOfShapes) (_E : List (String × String)) :
    List (String × Bool) :=
  sys.shapes.flatMap (fun shape =>
    (List.range shape.order).map
      (fun i => (derivSym shape.symbol i, isLinConstCoeff shape sys.shapes)))

def exY6 : Shape := ⟨"y", 1, [("y", zeroE)], [constE 0], zeroE⟩

def exZ6 : Shape := ⟨"z", 1, [("z", zeroE)], [symE "y"], zeroE⟩

inductive PropErr where
  | keyError
deriving DecidableEq, Repr

/-- In-place update of the classification map: the first entry for the
key is set to `False` (`node_is_lin[n_neigh] = False`). -/
def setFalse : List (String × Bool) → String → List (String × Bool)
  | [], _ => []
  | (k, b) :: rest, s =>
      if k = s then (k, false) :: rest else (k, b) :: setFalse rest s

def countTrue (m : List (String × Bool)) : Nat := (m.filter (fun p => p.2)).length

/-- The inner loop of `propagate_lin_cc_judgements` over the dependent
neighbours of the dequeued node (system_of_shapes.py lines 89-94): a
neighbour still marked lin-cc is demoted and enqueued; a missing key
raises `KeyError`. -/
def demoteNeighbours : List (String × Bool) → List String → List String →
    Except PropErr (List (String × Bool) × List String)
  | m, q, [] => Except.ok (m, q)
  | m, q, nb :: rest =>
      match m.lookup nb with
      | none => Except.error PropErr.keyError
      | some true => demoteNeighbours (setFalse m nb) (q ++ [nb]) rest
      | some false => demoteNeighbours m q rest

/-- The breadth-first demotion loop of
`SystemOfShapes.propagate_lin_cc_judgements` (system_of_shapes.py lines
79-96): pop the front of the work queue; when the node is marked
non-lin-cc, demote every node with an edge into it that is still marked
lin-cc and enqueue it.  Termination holds because every iteration
strictly decreases `countTrue m + q.length`: a demotion trades one
`true` entry for one queue element, and a pop removes one queue
element. -/
def propagateLoop (E : List (String × String)) : List (String × Bool) → List String →
    Except PropErr (List (String × Bool))
  | m, [] => Except.ok m
  | m, n :: rest =>
      match m.lookup n with
      | none => Except.error PropErr.keyError
      | some true => propagateLoop E m rest
      | some false =>
          match hdm : demoteNeighbours m rest ((E.filter (fun p => p.2 = n)).map Prod.fst) with
          | Except.error e => Except.error e
          | Except.ok (m2, q2) => propagateLoop E m2 q2
termination_by m q => countTrue m + q.length
decreasing_by
  · simp only [List.length_cons]
    omega
  · have hcnt : ∀ (mm : List (String × Bool)) (s : String), mm.lookup s = some true →
        countTrue (setFalse mm s) + 1 = countTrue mm := by
      intro mm
      induction mm with
      | nil => intro s h; cases h
      | cons p rest2 ih =>
          intro s h
          rcases p with ⟨k, b⟩
          by_cases hk : k = s
          · subst hk
            have hb : b = true := by
              simp [List.lookup] at h
              exact h
            subst hb
            simp [setFalse, countTrue, List.filter]
          · have hbeq : (s == k) = false := beq_eq_false_iff_ne.mpr (fun he => hk he.symm)
            simp only [List.lookup, hbeq] at h
            have := ih s h
            cases b <;> simp [setFalse, hk, countTrue, List.filter] at * <;> omega
    have key : ∀ (nbs : List String) (mm : List (String × Bool)) (qq : List String)
        (m2 : List (String × Bool)) (q2 : List String),
        demoteNeighbours mm qq nbs = Except.ok (m2, q2) →
        countTrue m2 + q2.length = countTrue mm + qq.length := by
      intro nbs
      induction nbs with
      | nil =>
          intro mm qq m2 q2 h
          simp only [demoteNeighbours] at h
          cases h
          rfl
      | cons nb rest2 ih =>
          intro mm qq m2 q2 h
          simp only [demoteNeighbours] at h
          cases hl : mm.lookup nb with
          | none => rw [hl] at h; cases h
          | some b =>
              rw [hl] at h
              cases b
              · exact ih mm qq m2 q2 h
              · have h2 := ih (setFalse mm nb) (qq ++ [nb]) m2 q2 h
                have h3 := hcnt mm nb hl
                simp only [List.length_append, List.length_cons, List.length_nil] at h2
                omega
    have hk2 := key _ _ _ _ _ hdm
    simp only [List.length_cons]
    omega

/-- `SystemOfShapes.propagate_lin_cc_judgements`: the queue is seeded
with every symbol already marked non-lin-cc (system_of_shapes.py line
82). -/
def propagateLinCcJudgements (m : List (String × Bool)) (E : List (String × String)) :
    Except PropErr (List (String × Bool)) :=
  propagateLoop E m ((m.filter (fun p => p.2 = false)).map Prod.fst)

/-- The map `m2` differs from `m` only by demotions: same symbols in the
same order, and each entry is either unchanged or has gone from `true`
to `false`. -/
def OnlyDemotes (m m2 : List (String × Bool)) : Prop :=
  m2.map Prod.fst = m.map Prod.fst ∧
  ∀ s, m2.lookup s = m.lookup s ∨ (m.lookup s = some true ∧ m2.lookup s = some false)

/-- No demotion is pending: whenever an edge points at a symbol marked
`false`, its source is already marked `false`. -/
def PropagationClosed (E : List (String × String)) (m : List (String × Bool)) : Prop :=
  ∀ p ∈ E, m.lookup p.2 = some false → m.lookup p.1 = some false

def exM7 : List (String × Bool) := [("a", true), ("b", false)]

def exE7 : List (String × String) := [("a", "b")]

/- Shape.from_function (shapes.py lines 347-536), embedded on its
polynomial fragment: the defining expression is a polynomial in the
time symbol with integer coefficients, represented as the list of
coefficients in ascending degree.  All derivative evaluations the code
performs are then exact integer arithmetic.  Default arguments are
fixed as in the source: max_t = 100 (so candidate times are 1..99) and
max_order = 4.  The rational vector X.inv() * Y is represented by
Cramer numerators over the common denominator det X, which the
invertibility scan guarantees to be nonzero, and the residual
x^(order) - sum f_k x^(k) is cleared of that denominator, so the
sympy.simplify(...).is_zero test becomes a zero test on an integer
coefficient list. -/

def evalPoly (p : List Int) (t : Int) : Int :=
  p.foldr (fun a acc => a + t * acc) 0

def derivPoly (p : List Int) : List Int :=
  (List.range (p.length - 1)).map (fun (i : Nat) => ((i : Int) + 1) * p.getD (i + 1) 0)

def iterDeriv (p : List Int) : Nat → List Int
  | 0 => p
  | k + 1 => derivPoly (iterDeriv p k)

def polyScale (c : Int) (p : List Int) : List Int := p.map (fun a => c * a)

def polyAdd : List Int → List Int → List Int
  | [], q => q
  | p, [] => p
  | a :: p, b :: q => (a + b) :: polyAdd p q

def polySub (p q : List Int) : List Int := polyAdd p (polyScale (-1) q)

def polySumList (l : List (List Int)) : List Int := l.foldr polyAdd []

def isZeroPoly (p : List Int) : Bool := p.all (fun c => c = 0)

def minorF (A : Nat → Nat → Int) (j : Nat) : Nat → Nat → Int :=
  fun r c => A (r + 1) (if c < j then c else c + 1)

def intSign (j : Nat) : Int := if j % 2 = 0 then 1 else -1

/-- Laplace expansion along the first row; `sympy.det`. -/
def detAux : Nat → (Nat → Nat → Int) → Int
  | 0, _ => 1
  | n + 1, A =>
      ((List.range (n + 1)).map (fun j => intSign j * A 0 j * detAux n (minorF A j))).sum

/-- The candidate evaluation points `range(1, max_t)` = 1..99. -/
def scanT : List Int := (List.range 99).map (fun k => (k : Int) + 1)

/-- Lines 418-422: the first t in 1..99 at which the shape function is
nonzero. -/
def findTval (p : List Int) : Option Int :=
  scanT.find? (fun t => evalPoly p t != 0)

/-- Line 483: `X[i, j] = derivatives[j].subs(time_symbol, t_ + i)`. -/
def XMat (p : List Int) (t0 : Int) : Nat → Nat → Int :=
  fun i j => evalPoly (iterDeriv p j) (t0 + i)

/-- X with column k replaced by Y (`Y[i] = derivatives[order].subs(time_symbol, t_ + i)`,
line 481): its determinant is the Cramer numerator of entry k of `X.inv() * Y`. -/
def XColY (p : List Int) (order : Nat) (t0 : Int) (k : Nat) : Nat → Nat → Int :=
  fun i j => if j = k then evalPoly (iterDeriv p order) (t0 + i) else XMat p t0 i j

/-- Lines 477-487: the first t in 1..99 at which det X is nonzero. -/
def findInvertible (p : List Int) (order : Nat) : Option Int :=
  scanT.find? (fun t => detAux order (XMat p t) != 0)

/-- The residual `derivatives[order] - sum_k f_k * derivatives[k]`
(lines 510-515), multiplied through by the common denominator `den` of
the factors, whose numerators are `nums`. -/
def resNum (p : List Int) (k : Nat) (nums : List Int) (den : Int) : List Int :=
  polySub (polyScale den (iterDeriv p k))
    (polySumList ((List.range k).map (fun i => polyScale (nums.getD i 0) (iterDeriv p i))))

def intStrLen (n : Int) : Nat := (toString n).length

/-- Model of `len(str(diff_rhs_lhs))` (line 519).  When the residual is
exactly zero sympy holds the literal number 0, printed as "0", length
1.  Otherwise the printed length of the unsimplified expression is a
printing-internal quantity; it is modelled as a digit-count sum, and no
theorem below depends on its value in that branch. -/
def strLenPoly (r : List Int) (den : Int) : Nat :=
  if isZeroPoly r then 1
  else (r.map (fun c => intStrLen c + intStrLen den + 7)).sum + 1

/-- The outcome of from_function on the polynomial fragment: the
inferred order and the derivative factors as (numerator, denominator)
pairs.  The initial values (line 534) are derivative evaluations at 0
and are not modelled, as no claim refers to them. -/
structure FoundOde where
  order : Nat
  factors : List (Int × Int)
deriving DecidableEq, Repr

inductive FromFuncErr where
  /-- "Cannot find t for which shape function is unequal to zero" (line 433) -/
  | cannotFindT
  /-- "Shape does not satisfy any ODE of order <= 4" (line 524) -/
  | noOdeFound
deriving DecidableEq, Repr

/-- One iteration of the while loop (lines 452-521) at a given order:
`continue` when no invertible X is found; otherwise solve for the
factors and accept iff the residual prints shorter than 1000 characters
and simplifies to zero. -/
def tryOrder (p : List Int) (order : Nat) : Option (List (Int × Int)) :=
  match findInvertible p order with
  | none => none
  | some t1 =>
      let det := detAux order (XMat p t1)
      let nums := (List.range order).map (fun k => detAux order (XColY p order t1 k))
      let r := resNum p order nums det
      if strLenPoly r det < 1000 ∧ isZeroPoly r = true then
        some (nums.map (fun n => (n, det)))
      else none

/-- The while loop: orders 2, 3, 4 (fuel = max_order - 1 = 3), then the
"does not satisfy any ODE" error (lines 523-525). -/
def fromFunctionSearch (p : List Int) : Nat → Nat → Except FromFuncErr FoundOde
  | 0, _ => Except.error FromFuncErr.noOdeFound
  | fuel + 1, order =>
      match tryOrder p order with
      | some fs => Except.ok ⟨order, fs⟩
      | none => fromFunctionSearch p fuel (order + 1)

/-- Shape.from_function on the polynomial fragment: find t_val, try
order 1 with factor `derivatives[1](t_val) / derivatives[0](t_val)`
(lines 444-446), then search orders 2..4. -/
def fromFunctionPoly (p : List Int) : Except FromFuncErr FoundOde :=
  match findTval p with
  | none => Except.error FromFuncErr.cannotFindT
  | some t0 =>
      let num := evalPoly (derivPoly p) t0
      let den := evalPoly p t0
      if isZeroPoly (resNum p 1 [num] den) = true then Except.ok ⟨1, [(num, den)]⟩
      else fromFunctionSearch p 3 2

/-- Multiplication of m+1, ..., m+k: the coefficient factor produced by
differentiating a monomial k times. -/
def ascFac : Nat → Nat → Nat
  | _, 0 => 1
  | m, k + 1 => (m + 1) * ascFac (m + 1) k

end OdeTb

namespace OdeTb

theorem lookup_of_mem_keys {β : Type} (l : List (String × β)) (sym : String)
    (h : sym ∈ l.map Prod.fst) : ∃ v, l.lookup sym = some v := by
  induction l with
  | nil => simp at h
  | cons q rest ih =>
      by_cases hq : sym = q.1
      · exact ⟨q.2, by simp [List.lookup, hq]⟩
      · have hr : sym ∈ rest.map Prod.fst := by
          simp only [List.map_cons, List.mem_cons] at h
          exact h.resolve_left hq
        rcases ih hr with ⟨v, hv⟩
        refine ⟨v, ?_⟩
        have hbeq : (sym == q.1) = false := beq_eq_false_iff_ne.mpr hq
        simpa [List.lookup, hbeq] using hv

/-- Claim C9: `get_initial_value` returns the stored expression when the
symbol is among the initial-value keys and `None` (without raising)
otherwise. -/
theorem C9_get_initial_value (sh : Shape) (sym : String) :
    (sym ∈ sh.initialValues.map Prod.fst →
      ∃ v, sh.initialValues.lookup sym = some v ∧ getInitialValue sh sym = some v) ∧
    (sym ∉ sh.initialValues.map Prod.fst → getInitialValue sh sym = none) := by
  constructor
  · intro hmem
    rcases lookup_of_mem_keys sh.initialValues sym hmem with ⟨v, hv⟩
    exact ⟨v, hv, by simp [getInitialValue, hmem, hv]⟩
  · intro hmem
    simp [getInitialValue, hmem]

/-- Witness for C9 at a concrete shape: the stored value is returned for
a present key, `none` for an absent one. -/
theorem C9_get_initial_value_witness :
    getInitialValue ⟨"V_m", 1, [("V_m", oneE)], [zeroE], zeroE⟩ "V_m" = some oneE ∧
    getInitialValue ⟨"V_m", 1, [("V_m", oneE)], [zeroE], zeroE⟩ "foo" = none := by
  constructor
  · rcases (C9_get_initial_value ⟨"V_m", 1, [("V_m", oneE)], [zeroE], zeroE⟩ "V_m").1
      (by decide) with ⟨v, hv, hg⟩
    have hveq : oneE = v := by simpa [List.lookup] using hv
    rw [hg, ← hveq]
  · exact (C9_get_initial_value ⟨"V_m", 1, [("V_m", oneE)], [zeroE], zeroE⟩ "foo").2 (by decide)

/-- Claim C1, amended: `compute_propagator` performs no homogeneity
check at all — its result is a function of the state vector and of `A`
only, so changing `C` (in particular making it nonzero) can neither
trigger an error nor alter the result. -/
theorem C1_compute_propagator_ignores_C (mexp : Mat → String → Mat) (hname : String)
    (x : List String) (A : Mat) (Cv Cw : Vec) (sh1 sh2 : List Shape) :
    computePropagator mexp hname ⟨x, A, Cv, sh1⟩ = computePropagator mexp hname ⟨x, A, Cw, sh2⟩ :=
  rfl

/-- Counterexample to C1 as stated: a one-dimensional subsystem with
`A = (0)` and `C = (1)` (not identically zero).  The claim requires
`compute_propagator` to raise `NonHomogeneousSubsystemError` here, but
the source contains no such check and happily returns the complete
solver dictionary (with the matrix exponential `exp(0*h) = (1)` supplied
by the expression algebra). -/
theorem C1_counterexample :
    isZeroE ((fun _ => oneE : Vec) 0) = false ∧
    computePropagator (fun _A _h => fun i j => if i = j then oneE else zeroE) "__h"
        ⟨["V"], fun _ _ => zeroE, fun _ => oneE, []⟩ =
      ⟨[("__P__V__V", oneE)], [("V", "__P__V__V * V")], ["V"]⟩ := by
  constructor
  · decide
  · decide

theorem derivSym_zero (s : String) : derivSym s 0 = s := by
  simp [derivSym, dSuffix]

theorem updatedAvs_idem (symbol : String) (n : Nat) (avs0 : List String) :
    updatedAvs symbol n (updatedAvs symbol n avs0) = updatedAvs symbol n avs0 := by
  unfold updatedAvs
  by_cases hm : symbol ∈ avs0
  · simp [hm]
  · rcases Nat.eq_zero_or_pos n with h0 | h0
    · simp [hm, h0]
    · have hds : symbol ∈ (List.range n).map (fun i => derivSym symbol i) :=
        List.mem_map.mpr ⟨0, List.mem_range.mpr h0, derivSym_zero symbol⟩
      have hmem2 : symbol ∈ avs0 ++ (List.range n).map (fun i => derivSym symbol i) :=
        List.mem_append_right _ hds
      simp [hm, hmem2]

/-- Claim C8, amended: two consecutive `from_ode` calls with equal
arguments return equal results (the known-symbol list reaches a fixed
point after the first call), starting from any prior session state of
the shared `all_variable_symbols` default list. -/
theorem C8_consecutive_equal_calls (state : List String) (symbol : String)
    (definition : Expr) (ivs : List (String × Expr)) :
    fromOde symbol definition ivs (fromOde symbol definition ivs state).2 =
      fromOde symbol definition ivs state := by
  unfold fromOde
  simp only [updatedAvs_idem]

theorem evalE_cons (t : Term) (e : Expr) (σ : String → Rat) :
    evalE (t :: e) σ = evalT t σ + evalE e σ := by
  simp [evalE]

theorem evalE_append (a b : Expr) (σ : String → Rat) :
    evalE (a ++ b) σ = evalE a σ + evalE b σ := by
  simp [evalE]

theorem evalE_filter_partition (p : Term → Bool) (e : Expr) (σ : String → Rat) :
    evalE e σ = evalE (e.filter p) σ + evalE (e.filter (fun t => ! p t)) σ := by
  induction e with
  | nil => simp [evalE]
  | cons t rest ih =>
      by_cases h : p t
      · simp [List.filter_cons, h, evalE_cons, ih]
        ring
      · simp [List.filter_cons, h, evalE_cons, ih]
        ring

theorem prodPows_cons (s : String) (e : Int) (l : List (String × Int)) (σ : String → Rat) :
    prodPows ((s, e) :: l) σ = σ s ^ e * prodPows l σ := rfl

theorem evalT_mulSymT (t : Term) (s : String) (σ : String → Rat) :
    evalT (mulSymT t s) σ = σ s * evalT t σ := by
  simp [evalT, mulSymT, prodPows_cons]
  ring

theorem evalT_divSymT (t : Term) (s : String) (σ : String → Rat) :
    evalT (divSymT t s) σ = (σ s)⁻¹ * evalT t σ := by
  simp [evalT, divSymT, prodPows_cons, zpow_neg_one]
  ring

theorem evalE_mulSymE (f : Expr) (s : String) (σ : String → Rat) :
    evalE (mulSymE f s) σ = σ s * evalE f σ := by
  induction f with
  | nil => simp [evalE, mulSymE]
  | cons t rest ih =>
      simp only [mulSymE, List.map_cons, evalE_cons] at *
      rw [ih, evalT_mulSymT]
      ring

theorem evalE_divSymE_mul (f : Expr) (s : String) (σ : String → Rat) (hs : σ s ≠ 0) :
    evalE (f.map (fun t => divSymT t s)) σ * σ s = evalE f σ := by
  induction f with
  | nil => simp [evalE]
  | cons t rest ih =>
      simp only [List.map_cons, evalE_cons]
      rw [add_mul, ih, evalT_divSymT]
      field_simp

theorem splitStep_eval (terms : List Term) (sym : String) (x : List String)
    (σ : String → Rat) (hs : σ sym ≠ 0) :
    evalE (splitStep terms sym x).1 σ * σ sym + evalE (splitStep terms sym x).2 σ =
      evalE terms σ := by
  unfold splitStep
  by_cases hemp : (terms.filter (fun t => termIsLinearIn t sym x)).isEmpty
  · simp only [hemp, if_pos]
    have h0 : evalE (constE 0) σ = 0 := by simp [constE, evalE, evalT]
    rw [h0, zero_mul, zero_add]
    have := evalE_filter_partition (fun t => termIsLinearIn t sym x) terms σ
    rw [List.isEmpty_iff] at hemp
    rw [hemp] at this
    simpa [evalE] using this.symm
  · simp only [hemp, if_neg, Bool.false_eq_true, not_false_iff]
    rw [evalE_divSymE_mul _ _ _ hs]
    exact (evalE_filter_partition (fun t => termIsLinearIn t sym x) terms σ).symm

theorem dotEval_cons (f : Expr) (fs : List Expr) (s : String) (ss : List String)
    (σ : String → Rat) :
    dotEval (f :: fs) (s :: ss) σ = evalE f σ * σ s + dotEval fs ss σ := by
  simp [dotEval]

theorem splitAux_eval (syms : List String) (terms : List Term) (x : List String)
    (σ : String → Rat) (hσ : ∀ s ∈ syms, σ s ≠ 0) :
    dotEval (splitAux terms syms x).1 syms σ + evalE (splitAux terms syms x).2 σ =
      evalE terms σ := by
  induction syms generalizing terms with
  | nil => simp [splitAux, dotEval]
  | cons sym rest ih =>
      have hs : σ sym ≠ 0 := hσ sym (List.mem_cons_self _ _)
      have hrest : ∀ s ∈ rest, σ s ≠ 0 := fun s hsm => hσ s (List.mem_cons_of_mem _ hsm)
      simp only [splitAux, dotEval_cons]
      have hstep := splitStep_eval terms sym x σ hs
      have hrec := ih (splitStep terms sym x).2 hrest
      rw [add_assoc, hrec, hstep]

theorem splitAux_length (syms : List String) (terms : List Term) (x : List String) :
    (splitAux terms syms x).1.length = syms.length := by
  induction syms generalizing terms with
  | nil => simp [splitAux]
  | cons sym rest ih => simp [splitAux, ih]

theorem splitLinNonlin_eval (terms : List Term) (x : List String) (σ : String → Rat)
    (hσ : ∀ s ∈ x, σ s ≠ 0) :
    dotEval (splitLinNonlin terms x).1 x σ + evalE (splitLinNonlin terms x).2 σ =
      evalE terms σ :=
  splitAux_eval x terms x σ hσ

theorem splitLinNonlin_length (terms : List Term) (x : List String) :
    (splitLinNonlin terms x).1.length = x.length :=
  splitAux_length x terms x

theorem prodPows_pullOut (l : List (String × Int)) (s : String) (σ : String → Rat)
    (hs : σ s ≠ 0) :
    prodPows l σ = σ s ^ getExpP l s * prodPows (remKeyP l s) σ := by
  induction l with
  | nil => simp [prodPows, getExpP, remKeyP]
  | cons p rest ih =>
      rcases p with ⟨a, e⟩
      by_cases ha : a = s
      · subst ha
        rw [prodPows_cons, ih]
        have hg : getExpP ((a, e) :: rest) a = e + getExpP rest a := by simp [getExpP]
        have hr : remKeyP ((a, e) :: rest) a = remKeyP rest a := by simp [remKeyP]
        rw [hg, hr, zpow_add₀ hs]
        ring
      · rw [prodPows_cons, ih]
        have hg : getExpP ((a, e) :: rest) s = getExpP rest s := by simp [getExpP, ha]
        have hr : remKeyP ((a, e) :: rest) s = (a, e) :: remKeyP rest s := by
          simp [remKeyP, ha]
        rw [hg, hr, prodPows_cons]
        ring

theorem prodPows_normPowsAux (fuel : Nat) (l : List (String × Int)) (σ : String → Rat)
    (hσ : ∀ s, σ s ≠ 0) (hfl : l.length ≤ fuel) :
    prodPows (normPowsAux fuel l) σ = prodPows l σ := by
  induction fuel generalizing l with
  | zero =>
      have : l = [] := List.length_eq_zero.mp (Nat.le_zero.mp hfl)
      subst this
      simp [normPowsAux]
  | succ fuel ih =>
      match l with
      | [] => simp [normPowsAux]
      | (s, e) :: rest =>
          have hlen : (remKeyP rest s).length ≤ fuel := by
            have h1 : (remKeyP rest s).length ≤ rest.length := List.length_filter_le _ rest
            have h2 : rest.length ≤ fuel := by simpa using hfl
            omega
          have hrec := ih (remKeyP rest s) hlen
          simp only [normPowsAux]
          by_cases htot : e + getExpP rest s = 0
          · simp only [htot, if_pos]
            rw [hrec, prodPows_cons, prodPows_pullOut rest s σ (hσ s)]
            rw [← mul_assoc, ← zpow_add₀ (hσ s), htot, zpow_zero, one_mul]
          · simp only [htot, if_neg, not_false_iff]
            rw [prodPows_cons, hrec, prodPows_cons, prodPows_pullOut rest s σ (hσ s)]
            rw [← mul_assoc, ← zpow_add₀ (hσ s)]

theorem evalT_normT (t : Term) (σ : String → Rat) (hσ : ∀ s, σ s ≠ 0) :
    evalT (normT t) σ = evalT t σ := by
  simp only [evalT, normT, normPows]
  rw [prodPows_normPowsAux t.pows.length t.pows σ hσ (le_refl _)]

theorem evalE_insertT (t : Term) (e : Expr) (σ : String → Rat) :
    evalE (insertT t e) σ = evalT t σ + evalE e σ := by
  induction e with
  | nil => simp [insertT, evalE]
  | cons u rest ih =>
      by_cases h : u.pows = t.pows
      · simp only [insertT, h, if_pos, evalE_cons]
        simp [evalT, h]
        ring
      · simp only [insertT, h, if_neg, not_false_iff, evalE_cons, ih]
        ring

theorem evalE_foldr_insertT (l : Expr) (σ : String → Rat) :
    evalE (l.foldr insertT []) σ = evalE l σ := by
  induction l with
  | nil => rfl
  | cons t rest ih => simp [List.foldr_cons, evalE_insertT, evalE_cons, ih]

theorem evalE_filter_coeff (l : Expr) (σ : String → Rat) :
    evalE (l.filter (fun t => t.coeff ≠ 0)) σ = evalE l σ := by
  induction l with
  | nil => rfl
  | cons t rest ih =>
      simp only [ne_eq, decide_not] at ih ⊢
      by_cases h : t.coeff = 0
      · simp [List.filter_cons, h, evalE_cons, ih, evalT]
      · simp [List.filter_cons, h, evalE_cons, ih]

theorem evalE_map_normT (l : Expr) (σ : String → Rat) (hσ : ∀ s, σ s ≠ 0) :
    evalE (l.map normT) σ = evalE l σ := by
  induction l with
  | nil => rfl
  | cons t rest ih => simp [List.map_cons, evalE_cons, evalT_normT t σ hσ, ih]

/-- Simplification is evaluation-preserving: the canonical form computed
by `normE` has the same value as the original expression under any
assignment of nonzero rational values to the symbols. -/
theorem evalE_normE (e : Expr) (σ : String → Rat) (hσ : ∀ s, σ s ≠ 0) :
    evalE (normE e) σ = evalE e σ := by
  unfold normE
  rw [evalE_filter_coeff, evalE_foldr_insertT, evalE_map_normT e σ hσ]

theorem filterMap_if_mem {α : Type} (f : Nat → α) (l : List Nat) (r : List Nat) :
    r.filterMap (fun i => if i ∈ l then some (f i) else none) =
      (r.filter (fun i => decide (i ∈ l))).map f := by
  induction r with
  | nil => rfl
  | cons a rest ih =>
      by_cases h : a ∈ l
      · simp [List.filterMap_cons, List.filter_cons, h, ih]
      · simp [List.filterMap_cons, List.filter_cons, h, ih]

theorem filterMap_if_not_mem {α : Type} (f : Nat → α) (l : List Nat) (r : List Nat) :
    r.filterMap (fun i => if i ∈ l then none else some (f i)) =
      (r.filter (fun i => ! decide (i ∈ l))).map f := by
  induction r with
  | nil => rfl
  | cons a rest ih =>
      by_cases h : a ∈ l
      · simp [List.filterMap_cons, List.filter_cons, h, ih]
      · simp [List.filterMap_cons, List.filter_cons, h, ih]

theorem sorted_split_last (l : List Nat) (n : Nat) (hl : l.Pairwise (· < ·)) (hn : n ∈ l)
    (hb : ∀ i ∈ l, i < n + 1) :
    ∃ l0, l = l0 ++ [n] ∧ l0.Pairwise (· < ·) ∧ ∀ i ∈ l0, i < n := by
  induction l with
  | nil => cases hn
  | cons a rest ih =>
      rcases List.mem_cons.mp hn with ha | hrest
      · subst ha
        match rest, hl with
        | [], _ => exact ⟨[], rfl, List.Pairwise.nil, by intro i hi; cases hi⟩
        | b :: rest2, hl =>
            exfalso
            have hab : n < b := (List.pairwise_cons.mp hl).1 b (List.mem_cons_self _ _)
            have hbb : b < n + 1 := hb b (by simp)
            omega
      · have hl2 : rest.Pairwise (· < ·) := (List.pairwise_cons.mp hl).2
        have hb2 : ∀ i ∈ rest, i < n + 1 := fun i hi => hb i (List.mem_cons_of_mem _ hi)
        rcases ih hl2 hrest hb2 with ⟨l0, hsplit, hpw, hlt⟩
        refine ⟨a :: l0, by rw [hsplit]; rfl, ?_, ?_⟩
        · rw [List.pairwise_cons]
          refine ⟨fun b hbmem => ?_, hpw⟩
          exact (List.pairwise_cons.mp hl).1 b (by rw [hsplit]; exact List.mem_append_left _ hbmem)
        · intro i hi
          rcases List.mem_cons.mp hi with hia | hil0
          · subst hia
            have : i < n ∨ i = n ∨ n < i := Nat.lt_trichotomy i n
            rcases this with h | h | h
            · exact h
            · exfalso
              subst h
              have : i < i := (List.pairwise_cons.mp hl).1 i
                (by rw [hsplit]; exact List.mem_append_right _ (by simp))
              omega
            · exfalso
              have hna : n < i := h
              have : n < n + 1 := Nat.lt_succ_self n
              have hia : i < n + 1 := hb i (List.mem_cons_self _ _)
              omega
          · exact hlt i hil0

theorem filter_range_eq_of_sorted (l : List Nat) (hl : l.Pairwise (· < ·)) (n : Nat)
    (hb : ∀ i ∈ l, i < n) :
    (List.range n).filter (fun i => decide (i ∈ l)) = l := by
  induction n generalizing l with
  | zero =>
      match l, hb with
      | [], _ => rfl
      | a :: rest, hb => exact absurd (hb a (by simp)) (by omega)
  | succ n ih =>
      rw [List.range_succ, List.filter_append]
      by_cases hn : n ∈ l
      · rcases sorted_split_last l n hl hn (by intro i hi; exact hb i hi) with
          ⟨l0, hsplit, hpw, hlt⟩
        have hfilter0 : (List.range n).filter (fun i => decide (i ∈ l)) =
            (List.range n).filter (fun i => decide (i ∈ l0)) := by
          apply List.filter_congr
          intro i hi
          have hin : i < n := List.mem_range.mp hi
          have : (i ∈ l) ↔ (i ∈ l0) := by
            rw [hsplit]
            simp only [List.mem_append, List.mem_singleton]
            constructor
            · rintro (h | h)
              · exact h
              · omega
            · intro h
              exact Or.inl h
          simp [this]
        rw [hfilter0, ih l0 hpw hlt, hsplit]
        simp [hn]
      · have hb2 : ∀ i ∈ l, i < n := by
          intro i hi
          have h1 : i < n + 1 := hb i hi
          have h2 : i ≠ n := fun he => hn (he ▸ hi)
          omega
        rw [ih l hl hb2]
        simp [hn]

theorem sum_map_filter_partition {α : Type} (p : α → Bool) (f : α → Rat) (l : List α) :
    (l.map f).sum = ((l.filter p).map f).sum + ((l.filter (fun a => ! p a)).map f).sum := by
  induction l with
  | nil => simp
  | cons a rest ih =>
      by_cases h : p a
      · simp [List.filter_cons, h, ih]
        ring
      · simp [List.filter_cons, h, ih]
        ring

theorem dotEval_eq_range_sum (fs : List Expr) (xs : List String) (σ : String → Rat)
    (hlen : fs.length = xs.length) :
    dotEval fs xs σ =
      ((List.range xs.length).map
        (fun i => evalE (fs.getD i (constE 0)) σ * σ (xs.getD i ""))).sum := by
  induction xs generalizing fs with
  | nil =>
      have : fs = [] := List.length_eq_zero.mp hlen
      subst this
      simp [dotEval]
  | cons s rest ih =>
      match fs, hlen with
      | f :: fsr, hlen =>
          have hlen2 : fsr.length = rest.length := by simpa using hlen
          rw [dotEval_cons, ih fsr hlen2]
          simp only [List.length_cons, List.range_succ_eq_map, List.map_cons, List.map_map,
            List.getD_cons_zero, Function.comp]
          simp [Function.comp_def, Nat.succ_eq_add_one, List.getElem?_cons_succ]

theorem evalE_flatten_map {α : Type} (g : α → Expr) (l : List α) (σ : String → Rat) :
    evalE ((l.map g).flatten) σ = (l.map (fun a => evalE (g a) σ)).sum := by
  induction l with
  | nil => rfl
  | cons a rest ih => simp [List.map_cons, List.flatten_cons, evalE_append, ih]

theorem evalE_flatten_zip (fs : List Expr) (xs : List String) (σ : String → Rat) :
    evalE (((fs.zip xs).map (fun p => mulSymE p.1 p.2)).flatten) σ = dotEval fs xs σ := by
  induction fs generalizing xs with
  | nil => simp [dotEval, evalE]
  | cons f fsr ih =>
      match xs with
      | [] => simp [dotEval, evalE]
      | s :: rest =>
          simp only [List.zip_cons_cons, List.map_cons, List.flatten_cons, evalE_append,
            dotEval_cons, ih, evalE_mulSymE]
          ring

theorem getD_indexOf (l : List String) (s : String) (h : s ∈ l) :
    l.getD (l.indexOf s) "" = s := by
  have hlt : l.indexOf s < l.length := List.indexOf_lt_length.mpr h
  rw [List.getD_eq_getElem l _ hlt]
  exact List.getElem_indexOf hlt

theorem dotEval_map_getD (dfs : List Expr) (avs1 : List String) (ds : List String)
    (σ : String → Rat) (hmem : ∀ s ∈ ds, s ∈ avs1) :
    dotEval ((ds.map (fun s => avs1.indexOf s)).map (fun i => dfs.getD i (constE 0))) ds σ =
      ((ds.map (fun s => avs1.indexOf s)).map
        (fun i => evalE (dfs.getD i (constE 0)) σ * σ (avs1.getD i ""))).sum := by
  induction ds with
  | nil => simp [dotEval]
  | cons s rest ih =>
      have hs : s ∈ avs1 := hmem s (List.mem_cons_self _ _)
      have hrest : ∀ q ∈ rest, q ∈ avs1 := fun q hq => hmem q (List.mem_cons_of_mem _ hq)
      simp only [List.map_cons, dotEval_cons, ih hrest, getD_indexOf avs1 s hs, List.sum_cons]

theorem evalE_ite_isEmpty (nonlin : Expr) (l : List Expr) (σ : String → Rat) :
    evalE (if l.isEmpty then nonlin else nonlin ++ l.flatten) σ =
      evalE nonlin σ + evalE l.flatten σ := by
  by_cases h : l.isEmpty
  · have hl : l = [] := List.isEmpty_iff.mp h
    subst hl
    simp [evalE]
  · simp [h, evalE_append]

/-- Claim C2, amended: for every Shape built by `from_ode` whose own
derivative symbols occupy ascending positions in the known-symbol list
(as the normal pipeline guarantees), reconstituting
`Σ derivative_factors[i]·state_variable[i] + nonlinear_residual`
reproduces the original right-hand side: both sides evaluate equally
under every assignment of nonzero rational values, whatever mixture of
linear, nonlinear and cross-shape coupling terms the right-hand side
contains. -/
theorem C2_round_trip_amended (symbol : String) (definition : Expr)
    (ivs : List (String × Expr)) (avs0 : List String) (sh : Shape)
    (hok : (fromOde symbol definition ivs avs0).1 = Except.ok sh)
    (hasc : (((List.range ivs.length).map (fun i => derivSym symbol i)).map
        (fun s => (updatedAvs symbol ivs.length avs0).indexOf s)).Pairwise (· < ·))
    (σ : String → Rat) (hσ : ∀ s, σ s ≠ 0) :
    evalE (reconstituteExpr sh) σ = evalE definition σ := by
  have hds : ∀ s ∈ (List.range ivs.length).map (fun i => derivSym symbol i),
      s ∈ updatedAvs symbol ivs.length avs0 := by
    by_contra hneg
    unfold fromOde fromOdeCore at hok
    dsimp only at hok
    rw [dif_neg hneg] at hok
    cases hok
  have hshape : sh = mkShape symbol ivs.length ivs
      ((List.range (updatedAvs symbol ivs.length avs0).length).filterMap (fun i =>
        if i ∈ ((List.range ivs.length).map (fun i => derivSym symbol i)).map
            (fun s => (updatedAvs symbol ivs.length avs0).indexOf s) then
          some ((splitLinNonlin definition (updatedAvs symbol ivs.length avs0)).1.getD i (constE 0))
        else none))
      (if ((List.range (updatedAvs symbol ivs.length avs0).length).filterMap (fun i =>
          if i ∈ ((List.range ivs.length).map (fun i => derivSym symbol i)).map
              (fun s => (updatedAvs symbol ivs.length avs0).indexOf s) then none
          else some (mulSymE
            ((splitLinNonlin definition (updatedAvs symbol ivs.length avs0)).1.getD i (constE 0))
            ((updatedAvs symbol ivs.length avs0).getD i "")))).isEmpty then
        (splitLinNonlin definition (updatedAvs symbol ivs.length avs0)).2
      else
        (splitLinNonlin definition (updatedAvs symbol ivs.length avs0)).2 ++
          ((List.range (updatedAvs symbol ivs.length avs0).length).filterMap (fun i =>
            if i ∈ ((List.range ivs.length).map (fun i => derivSym symbol i)).map
                (fun s => (updatedAvs symbol ivs.length avs0).indexOf s) then none
            else some (mulSymE
              ((splitLinNonlin definition (updatedAvs symbol ivs.length avs0)).1.getD i (constE 0))
              ((updatedAvs symbol ivs.length avs0).getD i "")))).flatten) := by
    unfold fromOde fromOdeCore at hok
    dsimp only at hok
    rw [dif_pos hds] at hok
    exact (Except.ok.inj hok).symm
  subst hshape
  -- notation
  have hIdxBound : ∀ i ∈ ((List.range ivs.length).map (fun i => derivSym symbol i)).map
      (fun s => (updatedAvs symbol ivs.length avs0).indexOf s),
      i < (updatedAvs symbol ivs.length avs0).length := by
    intro i hi
    rcases List.mem_map.mp hi with ⟨s, hsmem, hrfl⟩
    rw [← hrfl]
    exact List.indexOf_lt_length.mpr (hds s hsmem)
  have hlocal : (List.range (updatedAvs symbol ivs.length avs0).length).filterMap (fun i =>
      if i ∈ ((List.range ivs.length).map (fun i => derivSym symbol i)).map
          (fun s => (updatedAvs symbol ivs.length avs0).indexOf s) then
        some ((splitLinNonlin definition (updatedAvs symbol ivs.length avs0)).1.getD i (constE 0))
      else none) =
      (((List.range ivs.length).map (fun i => derivSym symbol i)).map
          (fun s => (updatedAvs symbol ivs.length avs0).indexOf s)).map
        (fun i => (splitLinNonlin definition (updatedAvs symbol ivs.length avs0)).1.getD i
          (constE 0)) := by
    rw [filterMap_if_mem]
    rw [filter_range_eq_of_sorted _ hasc _ hIdxBound]
  have hnonlocal : (List.range (updatedAvs symbol ivs.length avs0).length).filterMap (fun i =>
      if i ∈ ((List.range ivs.length).map (fun i => derivSym symbol i)).map
          (fun s => (updatedAvs symbol ivs.length avs0).indexOf s) then none
      else some (mulSymE
        ((splitLinNonlin definition (updatedAvs symbol ivs.length avs0)).1.getD i (constE 0))
        ((updatedAvs symbol ivs.length avs0).getD i ""))) =
      ((List.range (updatedAvs symbol ivs.length avs0).length).filter (fun i =>
        ! decide (i ∈ ((List.range ivs.length).map (fun i => derivSym symbol i)).map
          (fun s => (updatedAvs symbol ivs.length avs0).indexOf s)))).map
        (fun i => mulSymE
          ((splitLinNonlin definition (updatedAvs symbol ivs.length avs0)).1.getD i (constE 0))
          ((updatedAvs symbol ivs.length avs0).getD i "")) :=
    filterMap_if_not_mem _ _ _
  -- abbreviations for readability of the remaining computation
  set avs1 := updatedAvs symbol ivs.length avs0 with havs1
  set dfs := (splitLinNonlin definition avs1).1 with hdfs
  set nonlin := (splitLinNonlin definition avs1).2 with hnonlin
  set localIdx := ((List.range ivs.length).map (fun i => derivSym symbol i)).map
    (fun s => avs1.indexOf s) with hlocalIdx
  have gdef : ∀ i : Nat, evalE (mulSymE (dfs.getD i (constE 0)) (avs1.getD i "")) σ =
      evalE (dfs.getD i (constE 0)) σ * σ (avs1.getD i "") := by
    intro i
    rw [evalE_mulSymE]
    ring
  -- evaluate the reconstituted expression
  rw [reconstituteExpr]
  simp only [mkShape]
  rw [evalE_append]
  rw [evalE_normE _ _ hσ]
  rw [evalE_ite_isEmpty]
  rw [hnonlocal, hlocal]
  rw [evalE_flatten_zip]
  have horder : ((List.range ivs.length).map (fun i => derivSym symbol i)).length =
      ivs.length := by simp
  have hzip : dotEval (localIdx.map (fun i => dfs.getD i (constE 0)))
      ((List.range ivs.length).map (fun i => derivSym symbol i)) σ =
      (localIdx.map (fun i => evalE (dfs.getD i (constE 0)) σ * σ (avs1.getD i ""))).sum := by
    rw [hlocalIdx]
    exact dotEval_map_getD dfs avs1 _ σ hds
  rw [hzip]
  have hflat : evalE (((List.range avs1.length).filter (fun i => ! decide (i ∈ localIdx))).map
      (fun i => mulSymE (dfs.getD i (constE 0)) (avs1.getD i ""))).flatten σ =
      (((List.range avs1.length).filter (fun i => ! decide (i ∈ localIdx))).map
        (fun i => evalE (dfs.getD i (constE 0)) σ * σ (avs1.getD i ""))).sum := by
    rw [evalE_flatten_map]
    congr 1
    apply List.map_congr_left
    intro i _
    exact gdef i
  rw [hflat]
  -- assemble the partitioned sum back into the full range sum
  have hpart := sum_map_filter_partition (fun i => decide (i ∈ localIdx))
    (fun i => evalE (dfs.getD i (constE 0)) σ * σ (avs1.getD i ""))
    (List.range avs1.length)
  have hmemfilter : ((List.range avs1.length).filter (fun i => decide (i ∈ localIdx))).map
      (fun i => evalE (dfs.getD i (constE 0)) σ * σ (avs1.getD i "")) =
      localIdx.map (fun i => evalE (dfs.getD i (constE 0)) σ * σ (avs1.getD i "")) := by
    rw [filter_range_eq_of_sorted localIdx hasc avs1.length hIdxBound]
  rw [hmemfilter] at hpart
  have hdot : dotEval dfs avs1 σ =
      ((List.range avs1.length).map
        (fun i => evalE (dfs.getD i (constE 0)) σ * σ (avs1.getD i ""))).sum := by
    apply dotEval_eq_range_sum
    exact splitLinNonlin_length definition avs1
  have hsplit := splitLinNonlin_eval definition avs1 σ (fun s _ => hσ s)
  rw [hdot] at hsplit
  rw [hpart] at hsplit
  linarith [hsplit]

/-- Witness for the amended C2 at a concrete mixed input: with the
known symbols in ascending order, `x'' = 2*x + 3*x'` reconstitutes
exactly. -/
theorem C2_round_trip_amended_witness :
    ∃ sh : Shape, (fromOde "x" exC2def exC2ivs ["x", "x__d"]).1 = Except.ok sh ∧
      evalE (reconstituteExpr sh) exC2sigma = evalE exC2def exC2sigma := by
  refine ⟨⟨"x", 2, exC2ivs,
    [[⟨2, [("x", -1), ("x", 1)]⟩], [⟨3, [("x__d", -1), ("x__d", 1)]⟩]], []⟩, by decide, ?_⟩
  apply C2_round_trip_amended "x" exC2def exC2ivs ["x", "x__d"] _ (by decide) (by decide)
  intro s
  by_cases h : s = "x__d" <;> simp [exC2sigma, h]

theorem writeTopRow_fold_apply (A : Mat) (row : Nat) (x : List String) (e : Expr)
    (n a b : Nat) :
    ((List.range n).foldl (fun M j => setM M row j (diffE e (x.getD j ""))) A) a b =
      if a = row ∧ b < n then diffE e (x.getD b "") else A a b := by
  induction n with
  | zero => simp
  | succ n ih =>
      rw [List.range_succ, List.foldl_append, List.foldl_cons, List.foldl_nil]
      show setM _ row n (diffE e (x.getD n "")) a b = _
      rw [setM]
      by_cases h1 : a = row ∧ b = n
      · rcases h1 with ⟨ha, hb⟩
        subst ha
        subst hb
        simp
      · rw [if_neg h1, ih]
        by_cases h2 : a = row ∧ b < n
        · rw [if_pos h2, if_pos ⟨h2.1, Nat.lt_succ_of_lt h2.2⟩]
        · rw [if_neg h2, if_neg ?hcond]
          case hcond =>
            rintro ⟨ha, hb⟩
            rcases Nat.lt_succ_iff_lt_or_eq.mp hb with hlt | heq
            · exact h2 ⟨ha, hlt⟩
            · exact h1 ⟨ha, heq⟩

theorem writeTopRow_apply (A : Mat) (row : Nat) (x : List String) (e : Expr) (a b : Nat) :
    writeTopRow A row x e a b =
      if a = row ∧ b < x.length then diffE e (x.getD b "") else A a b :=
  writeTopRow_fold_apply A row x e x.length a b

theorem writeOnes_fold_apply (A : Mat) (i : Nat) (sh : Shape) (x : List String)
    (n a b : Nat) :
    ((List.range n).foldl (fun M o =>
        setM M (i + (sh.order - o - 1)) (x.indexOf (derivSym sh.symbol (o + 1))) oneE) A) a b =
      if ∃ o, o < n ∧ a = i + (sh.order - o - 1) ∧
          b = x.indexOf (derivSym sh.symbol (o + 1)) then oneE
      else A a b := by
  induction n with
  | zero => simp
  | succ n ih =>
      rw [List.range_succ, List.foldl_append, List.foldl_cons, List.foldl_nil]
      show setM _ (i + (sh.order - n - 1)) (x.indexOf (derivSym sh.symbol (n + 1))) oneE a b = _
      rw [setM]
      by_cases h1 : a = i + (sh.order - n - 1) ∧ b = x.indexOf (derivSym sh.symbol (n + 1))
      · rw [if_pos h1, if_pos ⟨n, Nat.lt_succ_self n, h1.1, h1.2⟩]
      · rw [if_neg h1, ih]
        by_cases h2 : ∃ o, o < n ∧ a = i + (sh.order - o - 1) ∧
            b = x.indexOf (derivSym sh.symbol (o + 1))
        · rcases h2 with ⟨o, ho, hao, hbo⟩
          rw [if_pos ⟨o, ho, hao, hbo⟩, if_pos ⟨o, Nat.lt_succ_of_lt ho, hao, hbo⟩]
        · rw [if_neg h2, if_neg ?hcond]
          case hcond =>
            rintro ⟨o, ho, hao, hbo⟩
            rcases Nat.lt_succ_iff_lt_or_eq.mp ho with hlt | heq
            · exact h2 ⟨o, hlt, hao, hbo⟩
            · subst heq
              exact h1 ⟨hao, hbo⟩

theorem writeOnes_apply (A : Mat) (i : Nat) (sh : Shape) (x : List String) (a b : Nat) :
    writeOnes A i sh x a b =
      if ∃ o, o < sh.order - 1 ∧ a = i + (sh.order - o - 1) ∧
          b = x.indexOf (derivSym sh.symbol (o + 1)) then oneE
      else A a b :=
  writeOnes_fold_apply A i sh x (sh.order - 1) a b

theorem buildAAux_frame_low (x : List String) (l : List Shape) (i : Nat) (A : Mat)
    (a b : Nat) (ha : a < i)
    (hloc : ∀ m, m < l.length →
      x.indexOf (derivSym (l.getD m dummyShape).symbol ((l.getD m dummyShape).order - 1)) =
        i + orderSum (l.take m)) :
    buildAAux x l i A a b = A a b := by
  induction l generalizing i A with
  | nil => rfl
  | cons sh rest ih =>
      have htop : x.indexOf (derivSym sh.symbol (sh.order - 1)) = i := by
        simpa [orderSum] using hloc 0 (by simp)
      show buildAAux x rest (i + sh.order)
        (writeOnes (writeTopRow A (x.indexOf (derivSym sh.symbol (sh.order - 1))) x
          (reconstituteExpr sh)) i sh x) a b = A a b
      rw [ih (i + sh.order) _ (by omega) ?hloc2]
      case hloc2 =>
        intro m hm
        have h2 := hloc (m + 1) (by simpa using Nat.succ_lt_succ hm)
        simp only [List.getD_cons_succ, List.take_succ_cons, orderSum, List.map_cons,
          List.sum_cons] at h2 ⊢
        rw [h2, Nat.add_assoc]
      rw [writeOnes_apply, if_neg ?hone, writeTopRow_apply, if_neg ?htopneg]
      case hone =>
        rintro ⟨o, ho, hao, _⟩
        omega
      case htopneg =>
        rintro ⟨haeq, _⟩
        rw [htop] at haeq
        omega

theorem buildAAux_top_row (x : List String) (l : List Shape) (i : Nat) (A : Mat)
    (hloc : ∀ m, m < l.length →
      x.indexOf (derivSym (l.getD m dummyShape).symbol ((l.getD m dummyShape).order - 1)) =
        i + orderSum (l.take m))
    (horder : ∀ sh ∈ l, 1 ≤ sh.order)
    (k : Nat) (hk : k < l.length) (b : Nat) :
    buildAAux x l i A (i + orderSum (l.take k)) b =
      if b < x.length then diffE (reconstituteExpr (l.getD k dummyShape)) (x.getD b "")
      else A (i + orderSum (l.take k)) b := by
  induction l generalizing i A k with
  | nil => cases hk
  | cons sh rest ih =>
      have htop : x.indexOf (derivSym sh.symbol (sh.order - 1)) = i := by
        simpa [orderSum] using hloc 0 (by simp)
      have hord : 1 ≤ sh.order := horder sh (by simp)
      have hloc2 : ∀ m, m < rest.length →
          x.indexOf (derivSym (rest.getD m dummyShape).symbol
            ((rest.getD m dummyShape).order - 1)) =
          (i + sh.order) + orderSum (rest.take m) := by
        intro m hm
        have h2 := hloc (m + 1) (by simpa using Nat.succ_lt_succ hm)
        simp only [List.getD_cons_succ, List.take_succ_cons, orderSum, List.map_cons,
          List.sum_cons] at h2 ⊢
        rw [h2, Nat.add_assoc]
      cases k with
      | zero =>
          simp only [List.take_zero, orderSum, List.map_nil, List.sum_nil, Nat.add_zero,
            List.getD_cons_zero]
          show buildAAux x rest (i + sh.order)
            (writeOnes (writeTopRow A (x.indexOf (derivSym sh.symbol (sh.order - 1))) x
              (reconstituteExpr sh)) i sh x) i b = _
          rw [buildAAux_frame_low x rest (i + sh.order) _ i b (by omega) hloc2]
          rw [writeOnes_apply, if_neg ?hone0, writeTopRow_apply, htop]
          case hone0 =>
            rintro ⟨o, ho, hao, _⟩
            omega
          by_cases hb : b < x.length
          · rw [if_pos ⟨rfl, hb⟩, if_pos hb]
          · rw [if_neg (fun hc => hb hc.2), if_neg hb]
      | succ k2 =>
          have hk2 : k2 < rest.length := by simpa using hk
          have hrow : i + orderSum ((sh :: rest).take (k2 + 1)) =
              (i + sh.order) + orderSum (rest.take k2) := by
            simp only [List.take_succ_cons, orderSum, List.map_cons, List.sum_cons]
            omega
          rw [hrow]
          show buildAAux x rest (i + sh.order)
            (writeOnes (writeTopRow A (x.indexOf (derivSym sh.symbol (sh.order - 1))) x
              (reconstituteExpr sh)) i sh x) ((i + sh.order) + orderSum (rest.take k2)) b = _
          rw [ih (i + sh.order) _ hloc2 (fun q hq => horder q (List.mem_cons_of_mem _ hq))
            k2 hk2]
          simp only [List.getD_cons_succ]
          by_cases hb : b < x.length
          · rw [if_pos hb, if_pos hb]
          · rw [if_neg hb, if_neg hb]
            rw [writeOnes_apply, if_neg ?honeK, writeTopRow_apply, if_neg ?htopK]
            case honeK =>
              rintro ⟨o, ho, hao, _⟩
              omega
            case htopK =>
              rintro ⟨haeq, _⟩
              rw [htop] at haeq
              omega

theorem buildAAux_ones_row (x : List String) (l : List Shape) (i : Nat) (A : Mat)
    (hloc : ∀ m, m < l.length →
      x.indexOf (derivSym (l.getD m dummyShape).symbol ((l.getD m dummyShape).order - 1)) =
        i + orderSum (l.take m))
    (horder : ∀ sh ∈ l, 1 ≤ sh.order)
    (k : Nat) (hk : k < l.length) (m : Nat) (hm0 : 0 < m)
    (hm : m < (l.getD k dummyShape).order) (b : Nat) :
    buildAAux x l i A (i + orderSum (l.take k) + m) b =
      if b = x.indexOf (derivSym (l.getD k dummyShape).symbol
          ((l.getD k dummyShape).order - m)) then oneE
      else A (i + orderSum (l.take k) + m) b := by
  induction l generalizing i A k with
  | nil => cases hk
  | cons sh rest ih =>
      have htop : x.indexOf (derivSym sh.symbol (sh.order - 1)) = i := by
        simpa [orderSum] using hloc 0 (by simp)
      have hloc2 : ∀ q, q < rest.length →
          x.indexOf (derivSym (rest.getD q dummyShape).symbol
            ((rest.getD q dummyShape).order - 1)) =
          (i + sh.order) + orderSum (rest.take q) := by
        intro q hq
        have h2 := hloc (q + 1) (by simpa using Nat.succ_lt_succ hq)
        simp only [List.getD_cons_succ, List.take_succ_cons, orderSum, List.map_cons,
          List.sum_cons] at h2 ⊢
        rw [h2, Nat.add_assoc]
      cases k with
      | zero =>
          simp only [List.take_zero, orderSum, List.map_nil, List.sum_nil, Nat.add_zero,
            List.getD_cons_zero] at hm ⊢
          show buildAAux x rest (i + sh.order)
            (writeOnes (writeTopRow A (x.indexOf (derivSym sh.symbol (sh.order - 1))) x
              (reconstituteExpr sh)) i sh x) (i + m) b = _
          rw [buildAAux_frame_low x rest (i + sh.order) _ (i + m) b (by omega) hloc2]
          rw [writeOnes_apply]
          have hoeq : sh.order - (sh.order - m - 1) - 1 = m := by omega
          have hsucc : sh.order - m - 1 + 1 = sh.order - m := by omega
          by_cases hb : b = x.indexOf (derivSym sh.symbol (sh.order - m))
          · rw [if_pos ⟨sh.order - m - 1, by omega, by omega, by rw [hsucc]; exact hb⟩,
              if_pos hb]
          · rw [if_neg ?hnone, if_neg hb]
            rw [writeTopRow_apply, if_neg ?htop0]
            case htop0 =>
              rintro ⟨haeq, _⟩
              rw [htop] at haeq
              omega
            case hnone =>
              rintro ⟨o, ho, hao, hbo⟩
              have hoe : o = sh.order - m - 1 := by omega
              subst hoe
              rw [hsucc] at hbo
              exact hb hbo
      | succ k2 =>
          have hk2 : k2 < rest.length := by simpa using hk
          have hrow : i + orderSum ((sh :: rest).take (k2 + 1)) + m =
              (i + sh.order) + orderSum (rest.take k2) + m := by
            simp only [List.take_succ_cons, orderSum, List.map_cons, List.sum_cons]
            omega
          rw [hrow]
          simp only [List.getD_cons_succ] at hm ⊢
          show buildAAux x rest (i + sh.order)
            (writeOnes (writeTopRow A (x.indexOf (derivSym sh.symbol (sh.order - 1))) x
              (reconstituteExpr sh)) i sh x) ((i + sh.order) + orderSum (rest.take k2) + m)
            b = _
          rw [ih (i + sh.order) _ hloc2 (fun q hq => horder q (List.mem_cons_of_mem _ hq))
            k2 hk2 hm]
          by_cases hb : b = x.indexOf (derivSym (rest.getD k2 dummyShape).symbol
              ((rest.getD k2 dummyShape).order - m))
          · rw [if_pos hb, if_pos hb]
          · rw [if_neg hb, if_neg hb]
            rw [writeOnes_apply, if_neg ?honeK2, writeTopRow_apply, if_neg ?htopK2]
            case honeK2 =>
              rintro ⟨o, ho, hao, _⟩
              omega
            case htopK2 =>
              rintro ⟨haeq, _⟩
              rw [htop] at haeq
              omega

theorem buildCAux_frame (x : List String) (l : List Shape) (i : Nat) (Cv : Vec) (a : Nat)
    (hloc : ∀ m, m < l.length →
      x.indexOf (derivSym (l.getD m dummyShape).symbol ((l.getD m dummyShape).order - 1)) =
        i + orderSum (l.take m))
    (hne : ∀ m, m < l.length → a ≠ i + orderSum (l.take m)) :
    buildCAux x l Cv a = Cv a := by
  induction l generalizing i Cv with
  | nil => rfl
  | cons sh rest ih =>
      have htop : x.indexOf (derivSym sh.symbol (sh.order - 1)) = i := by
        simpa [orderSum] using hloc 0 (by simp)
      have ha0 : a ≠ i := by simpa [orderSum] using hne 0 (by simp)
      show buildCAux x rest
        (setV Cv (x.indexOf (derivSym sh.symbol (sh.order - 1)))
          (seqSubtract sh.diffRhsDerivatives x)) a = Cv a
      rw [ih (i + sh.order) _ ?hloc2 ?hne2]
      · rw [setV, htop, if_neg ha0]
      case hloc2 =>
        intro m hm
        have h2 := hloc (m + 1) (by simpa using Nat.succ_lt_succ hm)
        simp only [List.getD_cons_succ, List.take_succ_cons, orderSum, List.map_cons,
          List.sum_cons] at h2 ⊢
        rw [h2, Nat.add_assoc]
      case hne2 =>
        intro m hm
        have h2 := hne (m + 1) (by simpa using Nat.succ_lt_succ hm)
        simp only [List.take_succ_cons, orderSum, List.map_cons, List.sum_cons] at h2 ⊢
        omega

theorem buildCAux_hit (x : List String) (l : List Shape) (i : Nat) (Cv : Vec)
    (hloc : ∀ m, m < l.length →
      x.indexOf (derivSym (l.getD m dummyShape).symbol ((l.getD m dummyShape).order - 1)) =
        i + orderSum (l.take m))
    (horder : ∀ sh ∈ l, 1 ≤ sh.order)
    (k : Nat) (hk : k < l.length) :
    buildCAux x l Cv (i + orderSum (l.take k)) =
      seqSubtract (l.getD k dummyShape).diffRhsDerivatives x := by
  induction l generalizing i Cv k with
  | nil => cases hk
  | cons sh rest ih =>
      have htop : x.indexOf (derivSym sh.symbol (sh.order - 1)) = i := by
        simpa [orderSum] using hloc 0 (by simp)
      have hord : 1 ≤ sh.order := horder sh (by simp)
      have hloc2 : ∀ m, m < rest.length →
          x.indexOf (derivSym (rest.getD m dummyShape).symbol
            ((rest.getD m dummyShape).order - 1)) =
          (i + sh.order) + orderSum (rest.take m) := by
        intro m hm
        have h2 := hloc (m + 1) (by simpa using Nat.succ_lt_succ hm)
        simp only [List.getD_cons_succ, List.take_succ_cons, orderSum, List.map_cons,
          List.sum_cons] at h2 ⊢
        rw [h2, Nat.add_assoc]
      cases k with
      | zero =>
          simp only [List.take_zero, orderSum, List.map_nil, List.sum_nil, Nat.add_zero,
            List.getD_cons_zero]
          show buildCAux x rest
            (setV Cv (x.indexOf (derivSym sh.symbol (sh.order - 1)))
              (seqSubtract sh.diffRhsDerivatives x)) i =
            seqSubtract sh.diffRhsDerivatives x
          rw [buildCAux_frame x rest (i + sh.order) _ i hloc2 ?hlow]
          · rw [setV, htop, if_pos rfl]
          case hlow =>
            intro m hm
            omega
      | succ k2 =>
          have hk2 : k2 < rest.length := by simpa using hk
          have hrow : i + orderSum ((sh :: rest).take (k2 + 1)) =
              (i + sh.order) + orderSum (rest.take k2) := by
            simp only [List.take_succ_cons, orderSum, List.map_cons, List.sum_cons]
            omega
          rw [hrow]
          simp only [List.getD_cons_succ]
          show buildCAux x rest
            (setV Cv (x.indexOf (derivSym sh.symbol (sh.order - 1)))
              (seqSubtract sh.diffRhsDerivatives x))
            ((i + sh.order) + orderSum (rest.take k2)) = _
          rw [ih (i + sh.order) _ hloc2
            (fun q hq => horder q (List.mem_cons_of_mem _ hq)) k2 hk2]

theorem stateVariables_length (sh : Shape) : (stateVariables sh).length = sh.order := by
  simp [stateVariables]

theorem stateVariables_getD (sh : Shape) (m : Nat) (hm : m < sh.order) :
    (stateVariables sh).getD m "" = derivSym sh.symbol (sh.order - 1 - m) := by
  unfold stateVariables
  have hlen : m < ((List.range sh.order).reverse).length := by simpa using hm
  rw [List.getD_eq_getElem _ _ (by simpa using hm)]
  rw [List.getElem_map]
  congr 1
  rw [List.getElem_reverse]
  rw [List.getElem_range]
  simp

theorem flatMap_states_length (shapes : List Shape) :
    (shapes.flatMap (fun sh => stateVariables sh)).length = orderSum shapes := by
  induction shapes with
  | nil => rfl
  | cons sh rest ih =>
      simp only [List.flatMap_cons, List.length_append, stateVariables_length, ih, orderSum,
        List.map_cons, List.sum_cons]

theorem flatMap_states_getD (shapes : List Shape) (k : Nat) (hk : k < shapes.length)
    (m : Nat) (hm : m < (shapes.getD k dummyShape).order) :
    (shapes.flatMap (fun sh => stateVariables sh)).getD (blockStart shapes k + m) "" =
      derivSym (shapes.getD k dummyShape).symbol
        ((shapes.getD k dummyShape).order - 1 - m) := by
  induction shapes generalizing k with
  | nil => cases hk
  | cons sh rest ih =>
      cases k with
      | zero =>
          simp only [List.getD_cons_zero] at hm ⊢
          have hstart : blockStart (sh :: rest) 0 = 0 := by
            simp [blockStart, orderSum]
          rw [hstart, Nat.zero_add]
          rw [List.flatMap_cons]
          have hmlen : m < (stateVariables sh).length := by
            rw [stateVariables_length]
            exact hm
          rw [List.getD_eq_getElem _ _ (by
            rw [List.length_append]
            omega)]
          rw [List.getElem_append_left hmlen]
          rw [← List.getD_eq_getElem _ _ hmlen]
          exact stateVariables_getD sh m hm
      | succ k2 =>
          have hk2 : k2 < rest.length := by simpa using hk
          simp only [List.getD_cons_succ] at hm ⊢
          have hstart : blockStart (sh :: rest) (k2 + 1) = sh.order + blockStart rest k2 := by
            simp [blockStart, orderSum, List.take_succ_cons]
          rw [hstart, List.flatMap_cons]
          have hgoal := ih k2 hk2 hm
          rw [← hgoal]
          have hoff : sh.order + blockStart rest k2 + m =
              (stateVariables sh).length + (blockStart rest k2 + m) := by
            rw [stateVariables_length]
            omega
          rw [hoff]
          rw [List.getD_append_right _ _ _ _ (by omega)]
          simp

theorem orderSum_append (a b : List Shape) : orderSum (a ++ b) = orderSum a + orderSum b := by
  simp [orderSum]

theorem blockStart_add_order_le (shapes : List Shape) (k : Nat) (hk : k < shapes.length) :
    blockStart shapes k + (shapes.getD k dummyShape).order ≤ orderSum shapes := by
  have hdrop : shapes.drop k = shapes.getD k dummyShape :: shapes.drop (k + 1) := by
    rw [List.getD_eq_getElem _ _ hk]
    exact List.drop_eq_getElem_cons hk
  have hsplit : orderSum shapes = blockStart shapes k + orderSum (shapes.drop k) := by
    conv_lhs => rw [← List.take_append_drop k shapes]
    rw [orderSum_append]
    rfl
  rw [hsplit, hdrop]
  simp only [orderSum, List.map_cons, List.sum_cons]
  omega

theorem indexOf_state (shapes : List Shape)
    (hnodup : (shapes.flatMap (fun sh => stateVariables sh)).Nodup)
    (k : Nat) (hk : k < shapes.length) (j : Nat) (hj : j < (shapes.getD k dummyShape).order) :
    (shapes.flatMap (fun sh => stateVariables sh)).indexOf
        (derivSym (shapes.getD k dummyShape).symbol j) =
      blockStart shapes k + ((shapes.getD k dummyShape).order - 1 - j) := by
  have hm : (shapes.getD k dummyShape).order - 1 - j < (shapes.getD k dummyShape).order := by
    omega
  have hget := flatMap_states_getD shapes k hk _ hm
  have hjj : (shapes.getD k dummyShape).order - 1 -
      ((shapes.getD k dummyShape).order - 1 - j) = j := by omega
  rw [hjj] at hget
  have hpos : blockStart shapes k + ((shapes.getD k dummyShape).order - 1 - j) <
      (shapes.flatMap (fun sh => stateVariables sh)).length := by
    rw [flatMap_states_length]
    have := blockStart_add_order_le shapes k hk
    omega
  rw [List.getD_eq_getElem _ _ hpos] at hget
  rw [← hget]
  exact List.indexOf_getElem hnodup _ hpos

theorem sum_map_range_single (n : Nat) (f : Nat → Rat) (r : Nat) (hr : r < n)
    (hzero : ∀ j, j < n → j ≠ r → f j = 0) :
    ((List.range n).map f).sum = f r := by
  induction n with
  | zero => omega
  | succ n ih =>
      rw [List.range_succ, List.map_append, List.sum_append]
      simp only [List.map_cons, List.map_nil, List.sum_cons, List.sum_nil]
      by_cases hrn : r = n
      · subst hrn
        have hz : ((List.range r).map f).sum = 0 := by
          apply List.sum_eq_zero
          intro y hy
          rcases List.mem_map.mp hy with ⟨j, hj, hfy⟩
          have hjr : j < r := List.mem_range.mp hj
          rw [← hfy]
          exact hzero j (by omega) (by omega)
        rw [hz]
        ring
      · have hrlt : r < n := by omega
        rw [ih hrlt (fun j hj hne => hzero j (by omega) hne)]
        rw [hzero n (by omega) (fun h => hrn h.symm)]
        ring

theorem prodPows_ones (l : List (String × Int)) : prodPows l (fun _ => 1) = 1 := by
  induction l with
  | nil => rfl
  | cons p rest ih => rw [prodPows_cons, ih, one_zpow, one_mul]

theorem evalE_ones (e : Expr) :
    evalE e (fun _ => 1) = ((e.map (fun t => t.coeff)).sum : Int) := by
  induction e with
  | nil => simp [evalE]
  | cons t rest ih =>
      rw [evalE_cons, ih]
      simp only [evalT, prodPows_ones, List.map_cons, List.sum_cons]
      push_cast
      ring

theorem fromShapes_hloc (shapes : List Shape)
    (horder : ∀ sh ∈ shapes, 1 ≤ sh.order)
    (hnodup : (shapes.flatMap (fun sh => stateVariables sh)).Nodup) :
    ∀ q, q < shapes.length →
      (shapes.flatMap (fun sh => stateVariables sh)).indexOf
        (derivSym ((shapes.getD q dummyShape)).symbol ((shapes.getD q dummyShape).order - 1)) =
      0 + orderSum (shapes.take q) := by
  intro q hq
  have hordq : 1 ≤ (shapes.getD q dummyShape).order := by
    apply horder
    rw [List.getD_eq_getElem _ _ hq]
    exact List.getElem_mem hq
  rw [indexOf_state shapes hnodup q hq _ (by omega)]
  have h0 : (shapes.getD q dummyShape).order - 1 -
      ((shapes.getD q dummyShape).order - 1) = 0 := by omega
  rw [h0]
  show blockStart shapes q + 0 = 0 + blockStart shapes q
  omega

theorem fromShapes_A_nontop (shapes : List Shape)
    (horder : ∀ sh ∈ shapes, 1 ≤ sh.order)
    (hnodup : (shapes.flatMap (fun sh => stateVariables sh)).Nodup)
    (k : Nat) (hk : k < shapes.length) (r : Nat)
    (hr1 : blockStart shapes k < r)
    (hr2 : r < blockStart shapes k + (shapes.getD k dummyShape).order) (b : Nat) :
    (fromShapes shapes).A r b = if b = r - 1 then oneE else zeroE := by
  have hrow : r = 0 + orderSum (shapes.take k) + (r - blockStart shapes k) := by
    have hb : blockStart shapes k = orderSum (shapes.take k) := rfl
    omega
  have hm0 : 0 < r - blockStart shapes k := by omega
  have hmlt : r - blockStart shapes k < (shapes.getD k dummyShape).order := by omega
  have hcol : (shapes.flatMap (fun sh => stateVariables sh)).indexOf
      (derivSym (shapes.getD k dummyShape).symbol
        ((shapes.getD k dummyShape).order - (r - blockStart shapes k))) = r - 1 := by
    rw [indexOf_state shapes hnodup k hk _ (by omega)]
    omega
  show buildAAux (shapes.flatMap (fun sh => stateVariables sh)) shapes 0
    (fun _ _ => zeroE) r b = _
  conv_lhs => rw [hrow]
  rw [buildAAux_ones_row _ _ _ _ (fromShapes_hloc shapes horder hnodup) horder k hk _
    hm0 hmlt b]
  rw [hcol]

theorem fromShapes_x_nontop (shapes : List Shape) (k : Nat) (hk : k < shapes.length)
    (r : Nat) (hr1 : blockStart shapes k < r)
    (hr2 : r < blockStart shapes k + (shapes.getD k dummyShape).order) :
    (fromShapes shapes).x.getD (r - 1) "" =
      derivSym (shapes.getD k dummyShape).symbol
        ((shapes.getD k dummyShape).order - (r - blockStart shapes k)) := by
  show (shapes.flatMap (fun sh => stateVariables sh)).getD (r - 1) "" = _
  have hr1eq : r - 1 = blockStart shapes k + (r - blockStart shapes k - 1) := by omega
  rw [hr1eq]
  rw [flatMap_states_getD shapes k hk _ (by omega)]
  congr 1
  omega

/-- Claim C3 (confirmed): in any system assembled by `from_shapes` from
shapes of order at least one with globally distinct state-variable
names, every non-top row `r` of a shape's block has exactly one nonzero
`A` entry, the entry equals 1, and it sits at column `r - 1`, the column
holding the next-higher derivative symbol of the same shape. -/
theorem C3_companion_form (shapes : List Shape)
    (horder : ∀ sh ∈ shapes, 1 ≤ sh.order)
    (hnodup : (shapes.flatMap (fun sh => stateVariables sh)).Nodup)
    (k : Nat) (hk : k < shapes.length) (r : Nat)
    (hr1 : blockStart shapes k < r)
    (hr2 : r < blockStart shapes k + (shapes.getD k dummyShape).order) :
    (fromShapes shapes).A r (r - 1) = oneE ∧
    isZeroE oneE = false ∧
    (∀ j, j ≠ r - 1 → (fromShapes shapes).A r j = zeroE) ∧
    (fromShapes shapes).x.getD (r - 1) "" =
      derivSym (shapes.getD k dummyShape).symbol
        ((shapes.getD k dummyShape).order - (r - blockStart shapes k)) := by
  refine ⟨?_, by decide, ?_, fromShapes_x_nontop shapes k hk r hr1 hr2⟩
  · rw [fromShapes_A_nontop shapes horder hnodup k hk r hr1 hr2 (r - 1), if_pos rfl]
  · intro j hj
    rw [fromShapes_A_nontop shapes horder hnodup k hk r hr1 hr2 j, if_neg hj]

theorem blockStart_mono (shapes : List Shape) (m m2 : Nat) (h : m ≤ m2) :
    blockStart shapes m ≤ blockStart shapes m2 := by
  unfold blockStart
  have htt : shapes.take m = (shapes.take m2).take m := by
    rw [List.take_take]
    congr 1
    omega
  rw [htt]
  conv_rhs => rw [← List.take_append_drop m (shapes.take m2)]
  rw [orderSum_append]
  omega

theorem blockStart_succ (shapes : List Shape) (k : Nat) (hk : k < shapes.length) :
    blockStart shapes (k + 1) = blockStart shapes k + (shapes.getD k dummyShape).order := by
  unfold blockStart
  rw [List.take_succ]
  rw [orderSum_append]
  congr 1
  rw [List.getElem?_eq_getElem hk]
  show orderSum [shapes[k]] = (shapes.getD k dummyShape).order
  rw [List.getD_eq_getElem _ _ hk]
  simp [orderSum]

theorem evalE_oneE (σ : String → Rat) : evalE oneE σ = 1 := by
  simp [oneE, evalE, evalT, prodPows]

theorem evalE_zeroE (σ : String → Rat) : evalE zeroE σ = 0 := rfl

/-- Claim C4, amended: the top row of a shape's block holds, in each
state column `j`, the partial derivative of the shape's full
reconstituted expression with respect to the j-th global state variable;
the `C` entry at the top row is computed from the shape's
`diff_rhs_derivatives` (the nonlinear residual) alone — not from the
full reconstituted expression — by sequentially subtracting, for each
global state variable in order, the variable times the partial
derivative of the running remainder (with simplification); all other
`C` entries are zero; and for every non-top row `r` the row identity
`(A·x + C)[r] = x[r-1]` holds under every assignment.  At the top row
the corresponding identity can fail (see the counterexample). -/
theorem C4_from_shapes_amended (shapes : List Shape)
    (horder : ∀ sh ∈ shapes, 1 ≤ sh.order)
    (hnodup : (shapes.flatMap (fun sh => stateVariables sh)).Nodup)
    (k : Nat) (hk : k < shapes.length) :
    (∀ j, j < (fromShapes shapes).x.length →
      (fromShapes shapes).A (blockStart shapes k) j =
        diffE (reconstituteExpr (shapes.getD k dummyShape))
          ((fromShapes shapes).x.getD j "")) ∧
    ((fromShapes shapes).C (blockStart shapes k) =
      seqSubtract (shapes.getD k dummyShape).diffRhsDerivatives
        (shapes.flatMap (fun sh => stateVariables sh))) ∧
    (∀ r, blockStart shapes k < r →
      r < blockStart shapes k + (shapes.getD k dummyShape).order →
      (fromShapes shapes).C r = zeroE ∧
      ∀ σ : String → Rat,
        rowValue (fromShapes shapes) r σ =
          σ ((fromShapes shapes).x.getD (r - 1) "")) := by
  have hloc := fromShapes_hloc shapes horder hnodup
  have hbs : blockStart shapes k = 0 + orderSum (shapes.take k) := by
    show _ = 0 + blockStart shapes k
    omega
  refine ⟨?_, ?_, ?_⟩
  · intro j hj
    show buildAAux (shapes.flatMap (fun sh => stateVariables sh)) shapes 0
      (fun _ _ => zeroE) (blockStart shapes k) j = _
    conv_lhs => rw [hbs]
    rw [buildAAux_top_row _ _ _ _ hloc horder k hk j]
    rw [if_pos (show j < (shapes.flatMap (fun sh => stateVariables sh)).length from hj)]
    rfl
  · show buildCAux (shapes.flatMap (fun sh => stateVariables sh)) shapes
      (fun _ => zeroE) (blockStart shapes k) = _
    conv_lhs => rw [hbs]
    rw [buildCAux_hit _ _ 0 _ hloc horder k hk]
  · intro r hr1 hr2
    have hC : (fromShapes shapes).C r = zeroE := by
      show buildCAux (shapes.flatMap (fun sh => stateVariables sh)) shapes
        (fun _ => zeroE) r = zeroE
      rw [buildCAux_frame _ _ 0 _ r hloc ?hne]
      case hne =>
        intro m hm
        show r ≠ 0 + blockStart shapes m
        rcases le_or_lt m k with hmk | hkm
        · have := blockStart_mono shapes m k hmk
          omega
        · have h1 : blockStart shapes k + (shapes.getD k dummyShape).order =
              blockStart shapes (k + 1) := (blockStart_succ shapes k hk).symm
          have h2 : blockStart shapes (k + 1) ≤ blockStart shapes m :=
            blockStart_mono shapes (k + 1) m hkm
          omega
    refine ⟨hC, ?_⟩
    intro σ
    unfold rowValue
    rw [hC, evalE_zeroE, add_zero]
    have hN : r - 1 < (fromShapes shapes).x.length := by
      show r - 1 < (shapes.flatMap (fun sh => stateVariables sh)).length
      rw [flatMap_states_length]
      have := blockStart_add_order_le shapes k hk
      omega
    rw [sum_map_range_single _ _ (r - 1) hN ?hz]
    case hz =>
      intro j hj hne
      rw [fromShapes_A_nontop shapes horder hnodup k hk r hr1 hr2 j, if_neg hne,
        evalE_zeroE]
      ring
    rw [fromShapes_A_nontop shapes horder hnodup k hk r hr1 hr2 (r - 1), if_pos rfl,
      evalE_oneE]
    ring

/-- Counterexample to C4 as stated: for shapes `y` with `y' = 0` and `z`
with `z' = y*z`, the claimed identity `(A·x + C)[row] = defining
expression of the row` fails at the top row of the `z` block: the
cross-product residual `y*z` is differentiated into both the `y` and the
`z` columns of `A` while `C` ends up zero, so the row of `A·x + C`
evaluates to `2` at the all-ones assignment while `z*y` evaluates
to `1`. -/
theorem C4_counterexample :
    rowValue (fromShapes [exYShape, exZShape]) 1 (fun _ => 1) ≠
      evalE (reconstituteExpr exZShape) (fun _ => 1) := by
  have hA0 : (fromShapes [exYShape, exZShape]).A 1 0 =
      [⟨1, [("y", -1), ("y", 1), ("z", 1)]⟩, ⟨0, [("y", -1), ("z", 1)]⟩] := by decide
  have hA1 : (fromShapes [exYShape, exZShape]).A 1 1 =
      [⟨1, [("z", -1), ("y", 1), ("z", 1)]⟩, ⟨0, [("z", -1), ("z", 1)]⟩] := by decide
  have hC1 : (fromShapes [exYShape, exZShape]).C 1 = [] := by decide
  have hxlen : (fromShapes [exYShape, exZShape]).x.length = 2 := by decide
  unfold rowValue
  rw [hxlen]
  have hrange : List.range 2 = [0, 1] := by decide
  rw [hrange]
  simp only [List.map_cons, List.map_nil, List.sum_cons, List.sum_nil]
  rw [hA0, hA1, hC1]
  rw [show reconstituteExpr exZShape =
    [⟨1, [("y", 1), ("z", 1)]⟩, ⟨0, [("z", 1)]⟩] from by decide]
  rw [evalE_ones, evalE_ones, evalE_ones, evalE_ones]
  norm_num

/-- Witness for the amended C4 at a concrete second-order shape: the
non-top row of the block satisfies `(A·x + C)[1] = x[0]` and its `C`
entry is zero. -/
theorem C4_from_shapes_amended_witness :
    (fromShapes [⟨"I", 2, [("I", zeroE), ("I__d", zeroE)],
        [constE (-1), constE (-2)], zeroE⟩]).C 1 = zeroE ∧
    rowValue (fromShapes [⟨"I", 2, [("I", zeroE), ("I__d", zeroE)],
        [constE (-1), constE (-2)], zeroE⟩]) 1 (fun _ => 1) = 1 := by
  have h := C4_from_shapes_amended
    [⟨"I", 2, [("I", zeroE), ("I__d", zeroE)], [constE (-1), constE (-2)], zeroE⟩]
    (by decide) (by decide) 0 (by decide)
  rcases h.2.2 1 (by decide) (by decide) with ⟨hc, hr⟩
  exact ⟨hc, by rw [hr (fun _ => 1)]⟩

/-- Witness for C3 at a concrete second-order shape: the non-top row of
the block carries a single 1 at the column of the next-higher
derivative. -/
theorem C3_companion_form_witness :
    (fromShapes [⟨"I", 2, [("I", zeroE), ("I__d", zeroE)],
        [constE (-1), constE (-2)], zeroE⟩]).A 1 0 = oneE ∧
    (∀ j, j ≠ 0 →
      (fromShapes [⟨"I", 2, [("I", zeroE), ("I__d", zeroE)],
        [constE (-1), constE (-2)], zeroE⟩]).A 1 j = zeroE) := by
  have h := C3_companion_form
    [⟨"I", 2, [("I", zeroE), ("I__d", zeroE)], [constE (-1), constE (-2)], zeroE⟩]
    (by decide) (by decide) 0 (by decide) 1 (by decide) (by decide)
  exact ⟨h.1, h.2.2.1⟩

/-- Claim C6, amended: the initial linear-constant-coefficient
classification marks a shape lin-cc iff, for every known state symbol,
every derivative factor has identically zero FIRST derivative with
respect to it (the factor may not depend on the state at all, not
merely linearly), and the nonlinear residual either does not depend on
it or has identically zero second derivatives with respect to it and
every known symbol; `get_lin_cc_symbols` then assigns this same verdict
to every derivative-level symbol of the shape. -/
theorem C6_lin_cc_classification (self : Shape) (shapes : List Shape)
    (sys : SystemOfShapes) (E : List (String × String)) :
    (isLinConstCoeff self shapes = true ↔
      ∀ sym ∈ allSymbolsOf self shapes,
        (∀ df ∈ self.derivativeFactors, isZeroE (diffE df sym) = true) ∧
        (isZeroE (diffE self.diffRhsDerivatives sym) = true ∨
         ∀ sym2 ∈ allSymbolsOf self shapes,
           isZeroE (diffE (diffE self.diffRhsDerivatives sym) sym2) = true)) ∧
    (∀ shape ∈ sys.shapes, ∀ i, i < shape.order →
      (derivSym shape.symbol i, isLinConstCoeff shape sys.shapes) ∈
        getLinCcSymbols sys E) := by
  constructor
  · unfold isLinConstCoeff
    simp only [List.all_eq_true, Bool.and_eq_true, Bool.or_eq_true]
  · intro shape hmem i hi
    unfold getLinCcSymbols
    apply List.mem_flatMap.mpr
    exact ⟨shape, hmem, List.mem_map.mpr ⟨i, List.mem_range.mpr hi, rfl⟩⟩

/-- Witness for the amended C6: a self-contained first-order shape is
classified lin-cc, and the classification is recorded for its base
symbol in `get_lin_cc_symbols`. -/
theorem C6_lin_cc_classification_witness :
    isLinConstCoeff exY6 [exZ6, exY6] = true ∧
    ("z", isLinConstCoeff exZ6 [exZ6, exY6]) ∈
      getLinCcSymbols (fromShapes [exZ6, exY6]) [] := by
  have h := C6_lin_cc_classification exY6 [exZ6, exY6] (fromShapes [exZ6, exY6]) []
  constructor
  · apply h.1.mpr
    decide
  · have h2 := h.2 exZ6 (by decide) 0 (by decide)
    simpa using h2

/-- Counterexample to C6 as stated: the shape `z` carries the
derivative factor `y`, a state symbol of the other shape; that
dependence is linear, so every second derivative of the factors and of
the residual with respect to the known symbols is identically zero and
the claim would mark the shape lin-cc; but the code demands the FIRST
derivative of each derivative factor to vanish and classifies the
shape as not lin-cc. -/
theorem C6_counterexample :
    isLinConstCoeff exZ6 [exZ6, exY6] = false ∧
    ((allSymbolsOf exZ6 [exZ6, exY6]).all (fun sym =>
      (allSymbolsOf exZ6 [exZ6, exY6]).all (fun sym2 =>
        exZ6.derivativeFactors.all (fun df => isZeroE (diffE (diffE df sym) sym2)) &&
        isZeroE (diffE (diffE exZ6.diffRhsDerivatives sym) sym2))) = true) := by
  exact ⟨by decide, by decide⟩

/-- Counterexample to C8 as stated: constructing the shape for `x`
first (with the shared default `all_variable_symbols=[]`) changes the
shape subsequently constructed for `y` from `y' = x*y` — the persisted
default list makes `x` a known state symbol, so `x*y` lands in the
nonlinear residual instead of being classified as a linear term in `y`
with factor `x`.  Construction of one Shape is therefore observable by
the construction of another, refuting purity. -/
theorem C8_counterexample :
    (fromOde "y" exC8defY [("y", zeroE)] (fromOde "x" exC8defX [("x", zeroE)] []).2).1 ≠
      (fromOde "y" exC8defY [("y", zeroE)] []).1 := by
  decide

/-- Counterexample to C2 as stated: with the known-symbol list
`["x__d", "x"]` (the shape's own derivative symbols in descending
position order), `from_ode` pairs the linear factors with the wrong
derivative levels — the factor list is assembled by ascending position
in `all_variable_symbols` but consumed as ascending derivative order —
so for `x'' = 2*x + 3*x'` the reconstituted expression is
`3*x + 2*x'`, and the difference from the original right-hand side does
not simplify to zero. -/
theorem C2_counterexample :
    ∃ sh : Shape, (fromOde "x" exC2def exC2ivs ["x__d", "x"]).1 = Except.ok sh ∧
      isZeroE (subE (reconstituteExpr sh) exC2def) = false ∧
      evalE (reconstituteExpr sh) exC2sigma ≠ evalE exC2def exC2sigma := by
  refine ⟨⟨"x", 2, exC2ivs,
    [[⟨3, [("x__d", -1), ("x__d", 1)]⟩], [⟨2, [("x", -1), ("x", 1)]⟩]], []⟩,
    by decide, by decide, ?_⟩
  have hx0 : derivSym "x" 0 = "x" := rfl
  have hx1 : derivSym "x" 1 = "x__d" := rfl
  have hne : ("x" : String) ≠ "x__d" := by decide
  norm_num [reconstituteExpr, evalE, evalT, prodPows, exC2sigma, exC2def, mulSymE, mulSymT,
    List.range_succ, hx0, hx1, hne]
end OdeTb

namespace OdeTb

theorem lookup_isSome_iff_mem (m : List (String × Bool)) (k : String) :
    (m.lookup k).isSome = true ↔ k ∈ m.map Prod.fst := by
  induction m with
  | nil => simp [List.lookup]
  | cons p rest ih =>
      rcases p with ⟨k2, b⟩
      by_cases hk : k = k2
      · subst hk
        simp [List.lookup]
      · have hbeq : (k == k2) = false := beq_eq_false_iff_ne.mpr hk
        simp [List.lookup, hbeq, hk, ih]

theorem lookup_mem (m : List (String × Bool)) (k : String) (b : Bool)
    (h : m.lookup k = some b) : (k, b) ∈ m := by
  induction m with
  | nil => cases h
  | cons p rest ih =>
      rcases p with ⟨k2, b2⟩
      by_cases hk : k = k2
      · subst hk
        simp [List.lookup] at h
        subst h
        exact List.mem_cons_self _ _
      · have hbeq : (k == k2) = false := beq_eq_false_iff_ne.mpr hk
        simp only [List.lookup, hbeq] at h
        exact List.mem_cons_of_mem _ (ih h)

theorem setFalse_keys (m : List (String × Bool)) (s : String) :
    (setFalse m s).map Prod.fst = m.map Prod.fst := by
  induction m with
  | nil => rfl
  | cons p rest ih =>
      rcases p with ⟨k, b⟩
      by_cases hk : k = s
      · simp [setFalse, hk]
      · simp [setFalse, hk, ih]

theorem setFalse_lookup_ne (m : List (String × Bool)) (s k : String) (hk : k ≠ s) :
    (setFalse m s).lookup k = m.lookup k := by
  induction m with
  | nil => rfl
  | cons p rest ih =>
      rcases p with ⟨k2, b⟩
      by_cases h2 : k2 = s
      · subst h2
        have hbeq : (k == k2) = false := beq_eq_false_iff_ne.mpr hk
        simp [setFalse, List.lookup, hbeq]
      · by_cases h3 : k = k2
        · subst h3
          simp [setFalse, h2, List.lookup]
        · have hbeq : (k == k2) = false := beq_eq_false_iff_ne.mpr h3
          simp [setFalse, h2, List.lookup, hbeq, ih]

theorem setFalse_lookup_self (m : List (String × Bool)) (s : String) (b : Bool)
    (h : m.lookup s = some b) : (setFalse m s).lookup s = some false := by
  induction m with
  | nil => cases h
  | cons p rest ih =>
      rcases p with ⟨k, b2⟩
      by_cases hk : k = s
      · subst hk
        simp [setFalse, List.lookup]
      · have hbeq : (s == k) = false := beq_eq_false_iff_ne.mpr (fun he => hk he.symm)
        simp only [List.lookup, hbeq] at h
        simp [setFalse, hk, List.lookup, hbeq, ih h]

theorem countTrue_setFalse (m : List (String × Bool)) (s : String)
    (h : m.lookup s = some true) : countTrue (setFalse m s) + 1 = countTrue m := by
  induction m with
  | nil => cases h
  | cons p rest ih =>
      rcases p with ⟨k, b⟩
      by_cases hk : k = s
      · subst hk
        have hb : b = true := by
          simp [List.lookup] at h
          exact h
        subst hb
        simp [setFalse, countTrue, List.filter]
      · have hbeq : (s == k) = false := beq_eq_false_iff_ne.mpr (fun he => hk he.symm)
        simp only [List.lookup, hbeq] at h
        have := ih h
        cases b <;> simp [setFalse, hk, countTrue, List.filter] at * <;> omega

theorem onlyDemotes_refl (m : List (String × Bool)) : OnlyDemotes m m :=
  ⟨rfl, fun _ => Or.inl rfl⟩

theorem onlyDemotes_trans (a b c : List (String × Bool))
    (h1 : OnlyDemotes a b) (h2 : OnlyDemotes b c) : OnlyDemotes a c := by
  refine ⟨h2.1.trans h1.1, fun s => ?_⟩
  rcases h1.2 s with hb | ⟨ha, hb⟩
  · rcases h2.2 s with hc | ⟨hb2, hc⟩
    · exact Or.inl (hc.trans hb)
    · exact Or.inr ⟨hb ▸ hb2, hc⟩
  · rcases h2.2 s with hc | ⟨hb2, hc⟩
    · exact Or.inr ⟨ha, hc.trans hb⟩
    · exact Or.inr ⟨ha, hc⟩

theorem onlyDemotes_setFalse (m : List (String × Bool)) (s : String)
    (h : m.lookup s = some true) : OnlyDemotes m (setFalse m s) := by
  refine ⟨setFalse_keys m s, fun k => ?_⟩
  by_cases hk : k = s
  · subst hk
    exact Or.inr ⟨h, setFalse_lookup_self m k _ h⟩
  · exact Or.inl (setFalse_lookup_ne m s k hk)

theorem onlyDemotes_lookup_false (m m2 : List (String × Bool)) (s : String)
    (h : OnlyDemotes m m2) (hs : m.lookup s = some false) : m2.lookup s = some false := by
  rcases h.2 s with h2 | ⟨h2, h3⟩
  · exact h2.trans hs
  · exact h3

theorem onlyDemotes_isSome (m m2 : List (String × Bool)) (s : String)
    (h : OnlyDemotes m m2) (hs : (m.lookup s).isSome = true) :
    (m2.lookup s).isSome = true := by
  rw [lookup_isSome_iff_mem] at hs ⊢
  rw [h.1]
  exact hs

/-- Full characterisation of the inner demotion loop: it succeeds when
every neighbour is a key of the map, it only demotes, it preserves
`countTrue + queue length`, it extends the queue, it leaves every
processed neighbour marked `false`, every newly demoted symbol is
enqueued, and every queue element comes from the old queue or the
neighbour list. -/
theorem demoteNeighbours_spec :
    ∀ (nbs : List String) (m : List (String × Bool)) (q : List String),
    (∀ nb ∈ nbs, (m.lookup nb).isSome = true) →
    ∃ m2 q2, demoteNeighbours m q nbs = Except.ok (m2, q2) ∧
      OnlyDemotes m m2 ∧
      countTrue m2 + q2.length = countTrue m + q.length ∧
      (∀ a ∈ q, a ∈ q2) ∧
      (∀ nb ∈ nbs, m2.lookup nb = some false) ∧
      (∀ s, m.lookup s = some true → m2.lookup s = some false → s ∈ q2) ∧
      (∀ a ∈ q2, a ∈ q ∨ a ∈ nbs) := by
  intro nbs
  induction nbs with
  | nil =>
      intro m q _
      refine ⟨m, q, rfl, onlyDemotes_refl m, rfl, fun a ha => ha, by simp, ?_, fun a ha => Or.inl ha⟩
      intro s h1 h2
      rw [h1] at h2
      cases h2
  | cons nb rest ih =>
      intro m q hsome
      have hnb : (m.lookup nb).isSome = true := hsome nb (List.mem_cons_self _ _)
      cases hl : m.lookup nb with
      | none => rw [hl] at hnb; cases hnb
      | some b =>
          cases b
          · -- already false: skip
            obtain ⟨m2, q2, heq, hmono, hcnt, hsub, hfalse, henq, hprov⟩ :=
              ih m q (fun nb2 hnb2 => hsome nb2 (List.mem_cons_of_mem _ hnb2))
            refine ⟨m2, q2, ?_, hmono, hcnt, hsub, ?_, henq, ?_⟩
            · simp only [demoteNeighbours, hl]
              exact heq
            · intro nb2 hnb2
              rcases List.mem_cons.mp hnb2 with h2 | h2
              · subst h2
                exact onlyDemotes_lookup_false m m2 nb2 hmono hl
              · exact hfalse nb2 h2
            · intro a ha
              rcases hprov a ha with h2 | h2
              · exact Or.inl h2
              · exact Or.inr (List.mem_cons_of_mem _ h2)
          · -- true: demote and enqueue
            have hkeys := setFalse_keys m nb
            obtain ⟨m2, q2, heq, hmono, hcnt, hsub, hfalse, henq, hprov⟩ :=
              ih (setFalse m nb) (q ++ [nb]) (fun nb2 hnb2 => by
                rw [lookup_isSome_iff_mem, hkeys, ← lookup_isSome_iff_mem]
                exact hsome nb2 (List.mem_cons_of_mem _ hnb2))
            have hmono0 : OnlyDemotes m (setFalse m nb) := onlyDemotes_setFalse m nb hl
            refine ⟨m2, q2, ?_, onlyDemotes_trans _ _ _ hmono0 hmono, ?_, ?_, ?_, ?_, ?_⟩
            · simp only [demoteNeighbours, hl]
              exact heq
            · have h1 := countTrue_setFalse m nb hl
              simp only [List.length_append, List.length_cons, List.length_nil] at hcnt
              omega
            · intro a ha
              exact hsub a (List.mem_append_left _ ha)
            · intro nb2 hnb2
              rcases List.mem_cons.mp hnb2 with h2 | h2
              · subst h2
                exact onlyDemotes_lookup_false _ m2 nb2 hmono
                  (setFalse_lookup_self m nb2 true hl)
              · exact hfalse nb2 h2
            · intro s h1 h2
              by_cases hs : s = nb
              · subst hs
                exact hsub s (List.mem_append_right _ (List.mem_cons_self _ _))
              · have h3 : (setFalse m nb).lookup s = some true := by
                  rw [setFalse_lookup_ne m nb s hs]
                  exact h1
                exact henq s h3 h2
            · intro a ha
              rcases hprov a ha with h2 | h2
              · rcases List.mem_append.mp h2 with h3 | h3
                · exact Or.inl h3
                · simp only [List.mem_cons, List.not_mem_nil, or_false] at h3
                  subst h3
                  exact Or.inr (List.mem_cons_self _ _)
              · exact Or.inr (List.mem_cons_of_mem _ h2)

theorem demoteNeighbours_allFalse (nbs : List String) :
    ∀ (m : List (String × Bool)) (q : List String),
    (∀ nb ∈ nbs, m.lookup nb = some false) →
    demoteNeighbours m q nbs = Except.ok (m, q) := by
  induction nbs with
  | nil => intro m q _; rfl
  | cons nb rest ih =>
      intro m q hall
      have h1 : m.lookup nb = some false := hall nb (List.mem_cons_self _ _)
      simp only [demoteNeighbours, h1]
      exact ih m q (fun nb2 h2 => hall nb2 (List.mem_cons_of_mem _ h2))

theorem propagateLoop_nil (E : List (String × String)) (m : List (String × Bool)) :
    propagateLoop E m [] = Except.ok m := by
  simp [propagateLoop]

theorem propagateLoop_true (E : List (String × String)) (m : List (String × Bool))
    (n : String) (rest : List String) (hl : m.lookup n = some true) :
    propagateLoop E m (n :: rest) = propagateLoop E m rest := by
  rw [propagateLoop, hl]

theorem propagateLoop_false (E : List (String × String)) (m m2 : List (String × Bool))
    (n : String) (rest q2 : List String)
    (hl : m.lookup n = some false)
    (hdm : demoteNeighbours m rest ((E.filter (fun p => p.2 = n)).map Prod.fst) =
      Except.ok (m2, q2)) :
    propagateLoop E m (n :: rest) = propagateLoop E m2 q2 := by
  rw [propagateLoop, hl]
  split
  · rename_i heq; cases heq
  · rename_i heq; simp at heq
  · split
    · rename_i e heq; rw [hdm] at heq; cases heq
    · rename_i a b heq; rw [hdm] at heq; cases heq; rfl

/-- A closed map is a fixed point of the work loop: every queued symbol
either is still `true` (skipped) or is `false`, in which case closure
means all its in-neighbours are already `false` and the demotion pass
is a no-op. -/
theorem propagateLoop_noop (E : List (String × String)) (m : List (String × Bool))
    (hcl : PropagationClosed E m) :
    ∀ q : List String, (∀ n ∈ q, (m.lookup n).isSome = true) →
    propagateLoop E m q = Except.ok m := by
  intro q
  induction q with
  | nil => intro _; exact propagateLoop_nil E m
  | cons n rest ih =>
      intro hq
      have hn : (m.lookup n).isSome = true := hq n (List.mem_cons_self _ _)
      have hrest : ∀ a ∈ rest, (m.lookup a).isSome = true :=
        fun a ha => hq a (List.mem_cons_of_mem _ ha)
      cases hl : m.lookup n with
      | none => rw [hl] at hn; cases hn
      | some b =>
          cases b
          · -- n is marked false; closure makes the demotion pass a no-op
            have hall : ∀ nb ∈ (E.filter (fun p => p.2 = n)).map Prod.fst,
                m.lookup nb = some false := by
              intro nb hnb
              obtain ⟨p, hp, hfst⟩ := List.mem_map.mp hnb
              obtain ⟨hpE, hp2⟩ := List.mem_filter.mp hp
              have hp2n : p.2 = n := by simpa using hp2
              subst hfst
              exact hcl p hpE (by rw [hp2n]; exact hl)
            rw [propagateLoop_false E m m n rest rest hl
              (demoteNeighbours_allFalse _ m rest hall)]
            exact ih hrest
          · rw [propagateLoop_true E m n rest hl]
            exact ih hrest

/-- Main loop invariant entailment: with all edge sources present and the
queue covering all pending demotions, the loop succeeds, only demotes,
and reaches a closed map. -/
theorem propagateLoop_spec :
    ∀ (k : Nat) (E : List (String × String)) (m : List (String × Bool)) (q : List String),
    countTrue m + q.length ≤ k →
    (∀ p ∈ E, (m.lookup p.1).isSome = true) →
    (∀ n ∈ q, (m.lookup n).isSome = true) →
    (∀ p ∈ E, m.lookup p.2 = some false → p.2 ∈ q ∨ m.lookup p.1 = some false) →
    ∃ m2, propagateLoop E m q = Except.ok m2 ∧ OnlyDemotes m m2 ∧ PropagationClosed E m2 := by
  intro k
  induction k with
  | zero =>
      intro E m q hk hE hq hinv
      have hq0 : q = [] := by
        cases q with
        | nil => rfl
        | cons a b => simp [List.length_cons] at hk
      subst hq0
      refine ⟨m, propagateLoop_nil E m, onlyDemotes_refl m, ?_⟩
      intro p hp h2
      rcases hinv p hp h2 with h3 | h3
      · cases h3
      · exact h3
  | succ k ih =>
      intro E m q hk hE hq hinv
      cases q with
      | nil =>
          refine ⟨m, propagateLoop_nil E m, onlyDemotes_refl m, ?_⟩
          intro p hp h2
          rcases hinv p hp h2 with h3 | h3
          · cases h3
          · exact h3
      | cons n rest =>
          have hn : (m.lookup n).isSome = true := hq n (List.mem_cons_self _ _)
          have hrest : ∀ a ∈ rest, (m.lookup a).isSome = true :=
            fun a ha => hq a (List.mem_cons_of_mem _ ha)
          cases hl : m.lookup n with
          | none => rw [hl] at hn; cases hn
          | some b =>
              cases b
              · -- dequeued symbol is non-lin-cc: demote its in-neighbours
                have hnbs : ∀ nb ∈ (E.filter (fun p => p.2 = n)).map Prod.fst,
                    (m.lookup nb).isSome = true := by
                  intro nb hnb
                  obtain ⟨p, hp, hfst⟩ := List.mem_map.mp hnb
                  obtain ⟨hpE, _⟩ := List.mem_filter.mp hp
                  subst hfst
                  exact hE p hpE
                obtain ⟨m2, q2, heq, hmono, hcnt, hsub, hfalse, henq, hprov⟩ :=
                  demoteNeighbours_spec _ m rest hnbs
                have hk2 : countTrue m2 + q2.length ≤ k := by
                  simp only [List.length_cons] at hk
                  omega
                have hE2 : ∀ p ∈ E, (m2.lookup p.1).isSome = true :=
                  fun p hp => onlyDemotes_isSome m m2 p.1 hmono (hE p hp)
                have hq2 : ∀ a ∈ q2, (m2.lookup a).isSome = true := by
                  intro a ha
                  rcases hprov a ha with h2 | h2
                  · exact onlyDemotes_isSome m m2 a hmono (hrest a h2)
                  · exact onlyDemotes_isSome m m2 a hmono (hnbs a h2)
                have hinv2 : ∀ p ∈ E, m2.lookup p.2 = some false →
                    p.2 ∈ q2 ∨ m2.lookup p.1 = some false := by
                  intro p hp h2
                  rcases hmono.2 p.2 with h3 | ⟨h3, _⟩
                  · -- p.2 was already false in m
                    have h4 : m.lookup p.2 = some false := h3 ▸ h2
                    rcases hinv p hp h4 with h5 | h5
                    · rcases List.mem_cons.mp h5 with h6 | h6
                      · -- p.2 = n: its in-neighbours were just demoted
                        subst h6
                        refine Or.inr (hfalse p.1 ?_)
                        exact List.mem_map.mpr ⟨p, List.mem_filter.mpr ⟨hp, by simp⟩, rfl⟩
                      · exact Or.inl (hsub p.2 h6)
                    · exact Or.inr (onlyDemotes_lookup_false m m2 p.1 hmono h5)
                  · -- p.2 was just demoted, hence enqueued
                    exact Or.inl (henq p.2 h3 h2)
                obtain ⟨m3, heq3, hmono3, hcl3⟩ := ih E m2 q2 hk2 hE2 hq2 hinv2
                refine ⟨m3, ?_, onlyDemotes_trans m m2 m3 hmono hmono3, hcl3⟩
                rw [propagateLoop_false E m m2 n rest q2 hl heq]
                exact heq3
              · -- dequeued symbol is still lin-cc: skip
                have hk2 : countTrue m + rest.length ≤ k := by
                  simp only [List.length_cons] at hk
                  omega
                have hinv2 : ∀ p ∈ E, m.lookup p.2 = some false →
                    p.2 ∈ rest ∨ m.lookup p.1 = some false := by
                  intro p hp h2
                  rcases hinv p hp h2 with h3 | h3
                  · rcases List.mem_cons.mp h3 with h4 | h4
                    · subst h4
                      rw [hl] at h2
                      cases h2
                    · exact Or.inl h4
                  · exact Or.inr h3
                obtain ⟨m3, heq3, hmono3, hcl3⟩ := ih E m rest hk2 hE hrest hinv2
                refine ⟨m3, ?_, hmono3, hcl3⟩
                rw [propagateLoop_true E m n rest hl]
                exact heq3

theorem seed_mem_keys (m : List (String × Bool)) (n : String)
    (h : n ∈ (m.filter (fun p => p.2 = false)).map Prod.fst) :
    (m.lookup n).isSome = true := by
  rw [lookup_isSome_iff_mem]
  obtain ⟨p, hp, hfst⟩ := List.mem_map.mp h
  subst hfst
  exact List.mem_map.mpr ⟨p, (List.mem_filter.mp hp).1, rfl⟩

theorem lookup_false_mem_seed (m : List (String × Bool)) (n : String)
    (h : m.lookup n = some false) :
    n ∈ (m.filter (fun p => p.2 = false)).map Prod.fst := by
  have h1 : (n, false) ∈ m := lookup_mem m n false h
  exact List.mem_map.mpr ⟨(n, false), List.mem_filter.mpr ⟨h1, by simp⟩, rfl⟩

/-- C7 (amended): for every dependency-edge set whose source symbols all
occur in the classification map, propagate_lin_cc_judgements terminates
and returns a map with the same symbols, only ever changes entries from
lin-cc (true) to non-lin-cc (false) and never the reverse, and is
idempotent: applying it a second time to its own output with the same
edges returns the same map.  (For edge sets mentioning unknown source
symbols the code instead raises KeyError, see the counterexample.) -/
theorem C7_propagate_amended (m : List (String × Bool)) (E : List (String × String))
    (hE : ∀ p ∈ E, (m.lookup p.1).isSome = true) :
    ∃ m2, propagateLinCcJudgements m E = Except.ok m2 ∧
      m2.map Prod.fst = m.map Prod.fst ∧
      (∀ s, m2.lookup s = m.lookup s ∨ (m.lookup s = some true ∧ m2.lookup s = some false)) ∧
      propagateLinCcJudgements m2 E = Except.ok m2 := by
  obtain ⟨m2, heq, hmono, hcl⟩ :=
    propagateLoop_spec (countTrue m + ((m.filter (fun p => p.2 = false)).map Prod.fst).length)
      E m _ le_rfl hE (fun n hn => seed_mem_keys m n hn)
      (fun p hp h2 => Or.inl (lookup_false_mem_seed m p.2 h2))
  refine ⟨m2, heq, hmono.1, hmono.2, ?_⟩
  exact propagateLoop_noop E m2 hcl _ (fun n hn => seed_mem_keys m2 n hn)

theorem C7_propagate_amended_witness :
    (∀ p ∈ exE7, (exM7.lookup p.1).isSome = true) ∧
    (∃ m2, propagateLinCcJudgements exM7 exE7 = Except.ok m2 ∧
      m2.map Prod.fst = exM7.map Prod.fst ∧
      (∀ s, m2.lookup s = exM7.lookup s ∨
        (exM7.lookup s = some true ∧ m2.lookup s = some false)) ∧
      propagateLinCcJudgements m2 exE7 = Except.ok m2) :=
  ⟨by decide, C7_propagate_amended exM7 exE7 (by decide)⟩

/-- C7 counterexample: the claim quantifies over EVERY edge set and map,
but when an edge source is absent from the map the code raises KeyError
at `node_is_lin[n_neigh]` (system_of_shapes.py line 91) and returns no
map at all, so idempotence on the output is not even well defined. -/
theorem C7_counterexample :
    propagateLinCcJudgements [("a", false)] [("b", "a")] = Except.error PropErr.keyError := by
  simp [propagateLinCcJudgements, propagateLoop, demoteNeighbours, List.lookup, List.filter]

end OdeTb

namespace OdeTb

theorem coeff_polyAdd (p q : List Int) (m : Nat) :
    (polyAdd p q).getD m 0 = p.getD m 0 + q.getD m 0 := by
  induction p generalizing q m with
  | nil => simp [polyAdd]
  | cons a p ih =>
      cases q with
      | nil => simp [polyAdd]
      | cons b q =>
          cases m with
          | zero => simp [polyAdd]
          | succ m => simpa [polyAdd] using ih q m

theorem coeff_polyScale (c : Int) (p : List Int) (m : Nat) :
    (polyScale c p).getD m 0 = c * p.getD m 0 := by
  induction p generalizing m with
  | nil => simp [polyScale]
  | cons a p ih =>
      cases m with
      | zero => simp [polyScale]
      | succ m => simpa [polyScale] using ih m

theorem coeff_polySub (p q : List Int) (m : Nat) :
    (polySub p q).getD m 0 = p.getD m 0 - q.getD m 0 := by
  rw [polySub, coeff_polyAdd, coeff_polyScale]
  ring

theorem coeff_polySumList (l : List (List Int)) (m : Nat) :
    (polySumList l).getD m 0 = (l.map (fun q => q.getD m 0)).sum := by
  induction l with
  | nil => simp [polySumList]
  | cons q l ih =>
      simp only [polySumList, List.foldr_cons, List.map_cons, List.sum_cons]
      rw [show (List.foldr polyAdd [] l) = polySumList l from rfl] at *
      rw [coeff_polyAdd, ih]

theorem coeff_mapRange (n : Nat) (f : Nat → Int) (m : Nat) :
    ((List.range n).map f).getD m 0 = if m < n then f m else 0 := by
  by_cases h : m < n
  · rw [List.getD_eq_getElem?_getD, List.getElem?_map, List.getElem?_range h]
    simp [h]
  · rw [List.getD_eq_default]
    · simp [h]
    · simp only [List.length_map, List.length_range]
      omega

theorem coeff_derivPoly (p : List Int) (m : Nat) :
    (derivPoly p).getD m 0 = ((m : Int) + 1) * p.getD (m + 1) 0 := by
  rw [derivPoly, coeff_mapRange]
  by_cases h : m < p.length - 1
  · simp [h]
  · simp only [h, if_false]
    rw [List.getD_eq_default]
    · ring
    · omega

theorem coeff_iterDeriv (p : List Int) (k m : Nat) :
    (iterDeriv p k).getD m 0 = (ascFac m k : Int) * p.getD (m + k) 0 := by
  induction k generalizing m with
  | zero => simp [iterDeriv, ascFac]
  | succ k ih =>
      rw [iterDeriv, coeff_derivPoly, ih (m + 1)]
      rw [show m + 1 + k = m + (k + 1) by omega]
      rw [show ascFac m (k + 1) = (m + 1) * ascFac (m + 1) k from rfl]
      push_cast
      ring

theorem ascFac_pos (m k : Nat) : 0 < ascFac m k := by
  induction k generalizing m with
  | zero => simp [ascFac]
  | succ k ih =>
      rw [show ascFac m (k + 1) = (m + 1) * ascFac (m + 1) k from rfl]
      exact Nat.mul_pos (Nat.succ_pos m) (ih (m + 1))

theorem isZeroPoly_iff (p : List Int) :
    isZeroPoly p = true ↔ ∀ m, p.getD m 0 = 0 := by
  rw [isZeroPoly, List.all_eq_true]
  constructor
  · intro h m
    by_cases hm : m < p.length
    · rw [List.getD_eq_getElem _ _ hm]
      have := h p[m] (List.getElem_mem hm)
      simpa using this
    · rw [List.getD_eq_default _ _ (by omega)]
  · intro h c hc
    obtain ⟨i, hi, hgc⟩ := List.getElem_of_mem hc
    have := h i
    rw [List.getD_eq_getElem _ _ hi] at this
    simp [hgc ▸ this]

theorem sum_map_range_single_int (n : Nat) (f : Nat → Int) (r : Nat) (hr : r < n)
    (hzero : ∀ j, j < n → j ≠ r → f j = 0) :
    ((List.range n).map f).sum = f r := by
  induction n with
  | zero => omega
  | succ n ih =>
      rw [List.range_succ, List.map_append, List.sum_append]
      by_cases h : r = n
      · subst h
        have hz : ((List.range r).map f).sum = 0 := by
          apply List.sum_eq_zero
          intro x hx
          obtain ⟨j, hj, hfx⟩ := List.mem_map.mp hx
          rw [List.mem_range] at hj
          rw [← hfx]
          exact hzero j (by omega) (by omega)
        simp [hz]
      · have hr2 : r < n := by omega
        rw [ih hr2 (fun j hj hjr => hzero j (by omega) hjr)]
        simp [hzero n (by omega) (fun he => h he.symm)]

theorem sum_map_range_zero (n : Nat) (f : Nat → Int)
    (hzero : ∀ j, j < n → f j = 0) :
    ((List.range n).map f).sum = 0 := by
  apply List.sum_eq_zero
  intro x hx
  obtain ⟨j, hj, hfx⟩ := List.mem_map.mp hx
  rw [List.mem_range] at hj
  rw [← hfx]
  exact hzero j hj

theorem coeff_resNum (p : List Int) (k : Nat) (nums : List Int) (den : Int) (m : Nat) :
    (resNum p k nums den).getD m 0 =
      den * ((ascFac m k : Int) * p.getD (m + k) 0) -
        ((List.range k).map
          (fun i => nums.getD i 0 * ((ascFac m i : Int) * p.getD (m + i) 0))).sum := by
  rw [resNum, coeff_polySub, coeff_polyScale, coeff_iterDeriv, coeff_polySumList,
    List.map_map]
  congr 1
  apply congrArg List.sum
  apply List.map_congr_left
  intro i _
  simp only [Function.comp]
  rw [coeff_polyScale, coeff_iterDeriv]

/-- Degree argument: a polynomial of exact degree d satisfies no linear
constant-coefficient homogeneous ODE of order k with 1 <= k <= d: the
denominator-cleared residual is never the zero polynomial. -/
theorem no_lower_order (p : List Int) (d : Nat) (hlen : p.length = d + 1)
    (hlead : p.getD d 0 ≠ 0) (k : Nat) (hk1 : 0 < k) (hkd : k ≤ d)
    (nums : List Int) (den : Int) (hden : den ≠ 0) :
    isZeroPoly (resNum p k nums den) = false := by
  by_contra hcon
  have hz : ∀ m, (resNum p k nums den).getD m 0 = 0 := by
    rw [← isZeroPoly_iff]
    revert hcon
    cases isZeroPoly (resNum p k nums den) <;> simp
  by_cases hex : ∃ i, i < k ∧ nums.getD i 0 ≠ 0
  · -- take the least index with a nonzero numerator
    have hspec := Nat.find_spec hex
    set i1 := Nat.find hex with hi1def
    obtain ⟨hi1k, hi1ne⟩ := hspec
    have hmin : ∀ j, j < i1 → nums.getD j 0 = 0 := by
      intro j hj
      have := Nat.find_min hex hj
      push_neg at this
      exact this (by omega)
    have hm := hz (d - i1)
    rw [coeff_resNum] at hm
    have hhigh : p.getD (d - i1 + k) 0 = 0 := by
      apply List.getD_eq_default
      omega
    rw [hhigh] at hm
    have hsum : ((List.range k).map
        (fun i => nums.getD i 0 * ((ascFac (d - i1) i : Int) * p.getD (d - i1 + i) 0))).sum
        = nums.getD i1 0 * ((ascFac (d - i1) i1 : Int) * p.getD d 0) := by
      rw [sum_map_range_single_int k _ i1 hi1k]
      · rw [show d - i1 + i1 = d by omega]
      · intro j hj hjne
        rcases Nat.lt_or_ge j i1 with hlt | hge
        · rw [hmin j hlt]
          ring
        · have : p.getD (d - i1 + j) 0 = 0 := by
            apply List.getD_eq_default
            omega
          rw [this]
          ring
    rw [hsum] at hm
    have hasc : (ascFac (d - i1) i1 : Int) ≠ 0 := by
      have h := ascFac_pos (d - i1) i1
      exact Int.natCast_ne_zero.mpr (Nat.pos_iff_ne_zero.mp h)
    exact absurd hm (by
      have h1 : nums.getD i1 0 * ((ascFac (d - i1) i1 : Int) * p.getD d 0) ≠ 0 :=
        mul_ne_zero hi1ne (mul_ne_zero hasc hlead)
      intro h2
      apply h1
      omega)
  · push_neg at hex
    have hm := hz (d - k)
    rw [coeff_resNum] at hm
    have hsum : ((List.range k).map
        (fun i => nums.getD i 0 * ((ascFac (d - k) i : Int) * p.getD (d - k + i) 0))).sum = 0 := by
      apply sum_map_range_zero
      intro j hj
      rw [hex j hj]
      ring
    rw [hsum, show d - k + k = d by omega] at hm
    have hasc : (ascFac (d - k) k : Int) ≠ 0 := by
      have h := ascFac_pos (d - k) k
      exact Int.natCast_ne_zero.mpr (Nat.pos_iff_ne_zero.mp h)
    exact absurd hm (by
      intro h2
      have := mul_ne_zero hden (mul_ne_zero hasc hlead)
      omega)


theorem det_zero_col : ∀ (n : Nat) (A : Nat → Nat → Int) (j0 : Nat), j0 < n →
    (∀ i, A i j0 = 0) → detAux n A = 0 := by
  intro n
  induction n with
  | zero => intro A j0 h _; omega
  | succ n ih =>
      intro A j0 hj0 hcol
      rw [show detAux (n + 1) A =
        ((List.range (n + 1)).map
          (fun j => intSign j * A 0 j * detAux n (minorF A j))).sum from rfl]
      apply sum_map_range_zero
      intro j hj
      by_cases hjj : j = j0
      · subst hjj
        rw [hcol 0]
        ring
      · have hminor : detAux n (minorF A j) = 0 := by
          rcases Nat.lt_or_ge j0 j with hlt | hge
          · apply ih (minorF A j) j0 (by omega)
            intro i
            simp only [minorF, if_pos hlt]
            exact hcol (i + 1)
          · have hlt2 : j < j0 := by omega
            apply ih (minorF A j) (j0 - 1) (by omega)
            intro i
            have hnot : ¬ (j0 - 1 < j) := by omega
            simp only [minorF, if_neg hnot]
            rw [show j0 - 1 + 1 = j0 by omega]
            exact hcol (i + 1)
        rw [hminor]
        ring

theorem evalPoly_allZero (q : List Int) (h : ∀ m, q.getD m 0 = 0) (t : Int) :
    evalPoly q t = 0 := by
  induction q with
  | nil => rfl
  | cons a q ih =>
      have h0 : a = 0 := by simpa using h 0
      have ht : ∀ m, q.getD m 0 = 0 := fun m => by simpa using h (m + 1)
      have hq := ih ht
      simp only [evalPoly] at hq ⊢
      simp [h0, hq]

theorem coeff_iterDeriv_top (p : List Int) (d : Nat) (hlen : p.length = d + 1) (m : Nat) :
    (iterDeriv p (d + 1)).getD m 0 = 0 := by
  rw [coeff_iterDeriv]
  rw [List.getD_eq_default _ _ (by omega)]
  ring

theorem cramer_num_zero (p : List Int) (d : Nat) (hlen : p.length = d + 1)
    (t1 : Int) (k : Nat) (hk : k < d + 1) :
    detAux (d + 1) (XColY p (d + 1) t1 k) = 0 := by
  apply det_zero_col (d + 1) _ k hk
  intro i
  simp only [XColY, if_pos rfl]
  exact evalPoly_allZero _ (coeff_iterDeriv_top p d hlen) _

theorem resNum_top_zero (p : List Int) (d : Nat) (hlen : p.length = d + 1)
    (nums : List Int) (hnums : ∀ i, nums.getD i 0 = 0) (den : Int) :
    isZeroPoly (resNum p (d + 1) nums den) = true := by
  rw [isZeroPoly_iff]
  intro m
  rw [coeff_resNum]
  rw [List.getD_eq_default _ _ (show p.length ≤ m + (d + 1) by omega)]
  rw [sum_map_range_zero]
  · ring
  · intro j hj
    rw [hnums j]
    ring

theorem one_mem_scanT : (1 : Int) ∈ scanT := by
  decide

theorem findInvertible_some (p : List Int) (order : Nat)
    (h : detAux order (XMat p 1) ≠ 0) :
    ∃ t1, findInvertible p order = some t1 ∧ detAux order (XMat p t1) ≠ 0 := by
  have hpred : (detAux order (XMat p 1) != 0) = true := by
    simpa [bne_iff_ne] using h
  have hsome : (scanT.find? (fun t => detAux order (XMat p t) != 0)).isSome := by
    rw [List.find?_isSome]
    exact ⟨1, one_mem_scanT, hpred⟩
  obtain ⟨t1, ht1⟩ := Option.isSome_iff_exists.mp hsome
  have hp := List.find?_some ht1
  refine ⟨t1, ht1, ?_⟩
  simpa [bne_iff_ne] using hp

theorem tryOrder_top (p : List Int) (d : Nat) (hlen : p.length = d + 1)
    (hdet1 : detAux (d + 1) (XMat p 1) ≠ 0) :
    ∃ den, den ≠ 0 ∧
      tryOrder p (d + 1) = some ((List.range (d + 1)).map (fun _ => ((0 : Int), den))) := by
  obtain ⟨t1, hfind, hdet⟩ := findInvertible_some p (d + 1) hdet1
  refine ⟨detAux (d + 1) (XMat p t1), hdet, ?_⟩
  have hnums : (List.range (d + 1)).map (fun k => detAux (d + 1) (XColY p (d + 1) t1 k)) =
      (List.range (d + 1)).map (fun _ => (0 : Int)) :=
    List.map_congr_left (fun k hk => cramer_num_zero p d hlen t1 k (List.mem_range.mp hk))
  have hzero : isZeroPoly (resNum p (d + 1) ((List.range (d + 1)).map (fun _ => (0 : Int)))
      (detAux (d + 1) (XMat p t1))) = true := by
    apply resNum_top_zero p d hlen
    intro i
    rw [coeff_mapRange]
    split <;> rfl
  simp only [tryOrder, hfind]
  rw [hnums, if_pos]
  · rw [List.map_map]
    rfl
  · refine ⟨?_, hzero⟩
    rw [strLenPoly, if_pos hzero]
    norm_num

theorem tryOrder_reject (p : List Int) (d : Nat) (hlen : p.length = d + 1)
    (hlead : p.getD d 0 ≠ 0) (k : Nat) (hk1 : 0 < k) (hkd : k ≤ d) :
    tryOrder p k = none := by
  cases hfind : findInvertible p k with
  | none => simp [tryOrder, hfind]
  | some t1 =>
      have hdet : detAux k (XMat p t1) ≠ 0 := by
        have hp := List.find?_some (show scanT.find? (fun t => detAux k (XMat p t) != 0)
          = some t1 from hfind)
        simpa [bne_iff_ne] using hp
      have hrej := no_lower_order p d hlen hlead k hk1 hkd
        ((List.range k).map (fun j => detAux k (XColY p k t1 j)))
        (detAux k (XMat p t1)) hdet
      simp only [tryOrder, hfind]
      rw [if_neg]
      intro hc
      rw [hrej] at hc
      exact absurd hc.2 (by simp)

theorem det_deg1 (c0 c1 : Int) : detAux 2 (XMat [c0, c1] 1) = -(c1 * c1) := by
  simp [detAux, XMat, minorF, intSign, iterDeriv, derivPoly, evalPoly,
    List.range_succ, List.getD]
  ring

theorem det_deg2 (c0 c1 c2 : Int) : detAux 3 (XMat [c0, c1, c2] 1) = -8 * c2 ^ 3 := by
  simp [detAux, XMat, minorF, intSign, iterDeriv, derivPoly, evalPoly,
    List.range_succ, List.getD]
  ring

theorem det_deg3 (c0 c1 c2 c3 : Int) : detAux 4 (XMat [c0, c1, c2, c3] 1) = 1296 * c3 ^ 4 := by
  simp [detAux, XMat, minorF, intSign, iterDeriv, derivPoly, evalPoly,
    List.range_succ, List.getD]
  ring

theorem findTval_none_all (p : List Int) (h : findTval p = none) :
    ∀ t ∈ scanT, evalPoly p t = 0 := by
  intro t ht
  have h2 := List.find?_eq_none.mp h t ht
  simpa [bne_iff_ne] using h2

theorem findTval_some_ne (p : List Int) (t0 : Int) (h : findTval p = some t0) :
    evalPoly p t0 ≠ 0 := by
  have hp := List.find?_some (show scanT.find? (fun t => evalPoly p t != 0) = some t0 from h)
  simpa [bne_iff_ne] using hp

theorem length_eq_four {α : Type} (l : List α) :
    l.length = 4 ↔ ∃ a b c d, l = [a, b, c, d] := by
  constructor
  · intro h
    rcases l with _ | ⟨a, _ | ⟨b, _ | ⟨c, _ | ⟨d, rest⟩⟩⟩⟩
    · simp at h
    · simp at h
    · simp at h
    · simp at h
    · have hr : rest = [] := by
        simp only [List.length_cons] at h
        exact List.length_eq_zero.mp (by omega)
      exact ⟨a, b, c, d, by rw [hr]⟩
  · rintro ⟨a, b, c, d, rfl⟩
    rfl

theorem fromFunction_success (p : List Int) (d : Nat) (hlen : p.length = d + 1)
    (hlead : p.getD d 0 ≠ 0) (hd3 : d ≤ 3) :
    ∃ den, den ≠ 0 ∧
      fromFunctionPoly p =
        Except.ok ⟨d + 1, (List.range (d + 1)).map (fun _ => ((0 : Int), den))⟩ := by
  interval_cases d
  · -- degree 0: constant shape, order 1 accepted directly
    obtain ⟨c0, rfl⟩ := List.length_eq_one.mp hlen
    simp only [List.getD, List.getElem?_cons_zero, Option.getD_some] at hlead
    cases hT : findTval [c0] with
    | none =>
        exfalso
        have h1 := findTval_none_all _ hT 1 (by decide)
        simp [evalPoly] at h1
        exact hlead h1
    | some t0 =>
        have hden := findTval_some_ne _ t0 hT
        refine ⟨evalPoly [c0] t0, hden, ?_⟩
        have hz : isZeroPoly (resNum [c0] 1 [evalPoly (derivPoly [c0]) t0]
            (evalPoly [c0] t0)) = true := by
          apply resNum_top_zero [c0] 0 rfl
          intro i
          cases i <;> simp [derivPoly, evalPoly, List.getD]
        simp only [fromFunctionPoly, hT]
        rw [if_pos hz]
        have hnum : evalPoly (derivPoly [c0]) t0 = 0 := by simp [derivPoly, evalPoly]
        rw [hnum]
        rfl
  · -- degree 1: order 2 accepted
    obtain ⟨c0, c1, rfl⟩ := List.length_eq_two.mp hlen
    have hc : c1 ≠ 0 := by simpa [List.getD] using hlead
    cases hT : findTval [c0, c1] with
    | none =>
        exfalso
        have h1 := findTval_none_all _ hT 1 (by decide)
        have h2 := findTval_none_all _ hT 2 (by decide)
        simp [evalPoly] at h1 h2
        omega
    | some t0 =>
        have hden := findTval_some_ne _ t0 hT
        have h1rej : isZeroPoly (resNum [c0, c1] 1 [evalPoly (derivPoly [c0, c1]) t0]
            (evalPoly [c0, c1] t0)) = false :=
          no_lower_order [c0, c1] 1 hlen hlead 1 one_pos le_rfl _ _ hden
        have hdet1 : detAux 2 (XMat [c0, c1] 1) ≠ 0 := by
          rw [det_deg1]
          exact neg_ne_zero.mpr (mul_ne_zero hc hc)
        obtain ⟨den, hdnz, htop⟩ := tryOrder_top [c0, c1] 1 hlen hdet1
        refine ⟨den, hdnz, ?_⟩
        simp only [fromFunctionPoly, hT]
        rw [if_neg (by rw [h1rej]; simp)]
        simp only [fromFunctionSearch, htop]
  · -- degree 2: orders 2 rejected, 3 accepted
    obtain ⟨c0, c1, c2, rfl⟩ := List.length_eq_three.mp hlen
    have hc : c2 ≠ 0 := by simpa [List.getD] using hlead
    cases hT : findTval [c0, c1, c2] with
    | none =>
        exfalso
        have h1 := findTval_none_all _ hT 1 (by decide)
        have h2 := findTval_none_all _ hT 2 (by decide)
        have h3 := findTval_none_all _ hT 3 (by decide)
        simp [evalPoly] at h1 h2 h3
        omega
    | some t0 =>
        have hden := findTval_some_ne _ t0 hT
        have h1rej : isZeroPoly (resNum [c0, c1, c2] 1 [evalPoly (derivPoly [c0, c1, c2]) t0]
            (evalPoly [c0, c1, c2] t0)) = false :=
          no_lower_order [c0, c1, c2] 2 hlen hlead 1 one_pos (by norm_num) _ _ hden
        have hr2 := tryOrder_reject [c0, c1, c2] 2 hlen hlead 2 (by norm_num) le_rfl
        have hdet1 : detAux 3 (XMat [c0, c1, c2] 1) ≠ 0 := by
          rw [det_deg2]
          exact mul_ne_zero (by norm_num) (pow_ne_zero _ hc)
        obtain ⟨den, hdnz, htop⟩ := tryOrder_top [c0, c1, c2] 2 hlen hdet1
        refine ⟨den, hdnz, ?_⟩
        simp only [fromFunctionPoly, hT]
        rw [if_neg (by rw [h1rej]; simp)]
        simp only [fromFunctionSearch, hr2, htop]
  · -- degree 3: orders 2 and 3 rejected, 4 accepted
    obtain ⟨c0, c1, c2, c3, rfl⟩ := (length_eq_four _).mp hlen
    have hc : c3 ≠ 0 := by simpa [List.getD] using hlead
    cases hT : findTval [c0, c1, c2, c3] with
    | none =>
        exfalso
        have h1 := findTval_none_all _ hT 1 (by decide)
        have h2 := findTval_none_all _ hT 2 (by decide)
        have h3 := findTval_none_all _ hT 3 (by decide)
        have h4 := findTval_none_all _ hT 4 (by decide)
        simp [evalPoly] at h1 h2 h3 h4
        omega
    | some t0 =>
        have hden := findTval_some_ne _ t0 hT
        have h1rej : isZeroPoly (resNum [c0, c1, c2, c3] 1
            [evalPoly (derivPoly [c0, c1, c2, c3]) t0]
            (evalPoly [c0, c1, c2, c3] t0)) = false :=
          no_lower_order [c0, c1, c2, c3] 3 hlen hlead 1 one_pos (by norm_num) _ _ hden
        have hr2 := tryOrder_reject [c0, c1, c2, c3] 3 hlen hlead 2 (by norm_num) (by norm_num)
        have hr3 := tryOrder_reject [c0, c1, c2, c3] 3 hlen hlead 3 (by norm_num) le_rfl
        have hdet1 : detAux 4 (XMat [c0, c1, c2, c3] 1) ≠ 0 := by
          rw [det_deg3]
          exact mul_ne_zero (by norm_num) (pow_ne_zero _ hc)
        obtain ⟨den, hdnz, htop⟩ := tryOrder_top [c0, c1, c2, c3] 3 hlen hdet1
        refine ⟨den, hdnz, ?_⟩
        simp only [fromFunctionPoly, hT]
        rw [if_neg (by rw [h1rej]; simp)]
        simp only [fromFunctionSearch, hr2, hr3, htop]

theorem fromFunction_fail (p : List Int) (d : Nat) (hlen : p.length = d + 1)
    (hlead : p.getD d 0 ≠ 0) (hd4 : 4 ≤ d) :
    ∃ e, fromFunctionPoly p = Except.error e := by
  cases hT : findTval p with
  | none => exact ⟨FromFuncErr.cannotFindT, by simp [fromFunctionPoly, hT]⟩
  | some t0 =>
      have hden := findTval_some_ne p t0 hT
      have h1rej : isZeroPoly (resNum p 1 [evalPoly (derivPoly p) t0]
          (evalPoly p t0)) = false :=
        no_lower_order p d hlen hlead 1 one_pos (by omega) _ _ hden
      have hr2 := tryOrder_reject p d hlen hlead 2 (by norm_num) (by omega)
      have hr3 := tryOrder_reject p d hlen hlead 3 (by norm_num) (by omega)
      have hr4 := tryOrder_reject p d hlen hlead 4 (by norm_num) (by omega)
      refine ⟨FromFuncErr.noOdeFound, ?_⟩
      simp only [fromFunctionPoly, hT]
      rw [if_neg (by rw [h1rej]; simp)]
      simp only [fromFunctionSearch, hr2, hr3, hr4]

/-- C5 (amended): on the polynomial fragment, for every nonzero
polynomial of exact degree d with d + 1 <= max_order = 4, from_function
returns order exactly d + 1 with all derivative factors equal to zero
(over a nonzero common denominator), the residual x^(d+1) - sum f_i x^(i)
(cleared of the denominator) is exactly the zero polynomial, and d + 1 is
minimal: for no order k <= d and no rational coefficient vector is the
cleared residual zero.  For every polynomial of degree >= 4 the function
fails with an error.  (The original claim is refuted by the zero
expression, which satisfies the order-1 ODE x-prime = 0 * x yet makes
from_function raise "Cannot find t for which shape function is unequal
to zero": see the counterexample.) -/
theorem C5_from_function_amended (p : List Int) (d : Nat)
    (hlen : p.length = d + 1) (hlead : p.getD d 0 ≠ 0) :
    (d ≤ 3 → ∃ den, den ≠ 0 ∧
        fromFunctionPoly p =
          Except.ok ⟨d + 1, (List.range (d + 1)).map (fun _ => ((0 : Int), den))⟩ ∧
        isZeroPoly (resNum p (d + 1) ((List.range (d + 1)).map (fun _ => (0 : Int))) den)
          = true ∧
        (∀ k, 0 < k → k ≤ d → ∀ nums : List Int, ∀ den2 : Int, den2 ≠ 0 →
          isZeroPoly (resNum p k nums den2) = false)) ∧
    (4 ≤ d → ∃ e, fromFunctionPoly p = Except.error e) := by
  constructor
  · intro hd3
    obtain ⟨den, hdnz, hok⟩ := fromFunction_success p d hlen hlead hd3
    refine ⟨den, hdnz, hok, ?_, ?_⟩
    · apply resNum_top_zero p d hlen
      intro i
      rw [coeff_mapRange]
      split <;> rfl
    · intro k hk1 hkd nums den2 hd2
      exact no_lower_order p d hlen hlead k hk1 hkd nums den2 hd2
  · intro hd4
    exact fromFunction_fail p d hlen hlead hd4

theorem C5_from_function_amended_witness :
    (([0, 1] : List Int).length = 1 + 1 ∧ ([0, 1] : List Int).getD 1 0 ≠ 0) ∧
    ((1 ≤ 3 → ∃ den, den ≠ 0 ∧
        fromFunctionPoly [0, 1] =
          Except.ok ⟨1 + 1, (List.range (1 + 1)).map (fun _ => ((0 : Int), den))⟩ ∧
        isZeroPoly (resNum [0, 1] (1 + 1) ((List.range (1 + 1)).map (fun _ => (0 : Int))) den)
          = true ∧
        (∀ k, 0 < k → k ≤ 1 → ∀ nums : List Int, ∀ den2 : Int, den2 ≠ 0 →
          isZeroPoly (resNum [0, 1] k nums den2) = false)) ∧
      (4 ≤ 1 → ∃ e, fromFunctionPoly [0, 1] = Except.error e)) :=
  ⟨⟨by decide, by decide⟩, C5_from_function_amended [0, 1] 1 (by decide) (by decide)⟩

/-- C5 counterexample: the zero expression satisfies the first-order
linear homogeneous ODE x-prime = 0 * x (the cleared residual of that ODE
is the zero polynomial), yet from_function does not return a Shape of
order 1 for it: the t_val scan (lines 418-434) finds no t with a
nonzero value and raises "Cannot find t for which shape function is
unequal to zero". -/
theorem C5_counterexample :
    isZeroPoly (resNum ([] : List Int) 1 [0] 1) = true ∧
    fromFunctionPoly [] = Except.error FromFuncErr.cannotFindT := by
  constructor
  · rfl
  · rfl
end OdeTb
